import Mathlib

/-!
# ipfuscator: alternative textual forms of an IPv4 address

A shallow embedding of `pkg/ipfuscator/ipfuscator.go`.

* Go `string` is Lean `String`; `byte` is `Fin 256`; `int` values that the
  code handles are small and are natural numbers here, with an explicit
  `% 2 ^ 32` where the source computes in `uint32`.
* `net.IP` is a list of bytes. A nil slice is `none` where the source tests
  for nil, and the empty list where only its length matters.
* The process-wide `math/rand` source is an explicit state: an infinite
  sequence of raw outputs and a cursor. `rand.Intn n` reads the value under
  the cursor, reduces it into `[0, n)` and advances the cursor by one.
* A Go run-time panic (index out of range) is `none`.
-/

namespace Ipfuscator

/-! ## Standard library: `strconv`, `strings` -/

/-- One byte. -/
abbrev Byte := Fin 256

/-- The conversion `byte(x)` of a non-negative integer: the low eight bits. -/
def toByte (n : Nat) : Byte := ⟨n % 256, Nat.mod_lt _ (by decide)⟩

/-- The function `strconv.FormatUint(u, base)` for a base from 2 to 16: the
minimal digits of `u`, most significant first, letters in lower case. -/
def FormatUint (u : Nat) (base : Nat) : String :=
  String.mk (Nat.toDigits base u)

/-- The function `strconv.FormatInt(i, base)`: a minus sign for a negative
number, then the digits of the magnitude. -/
def FormatInt (i : Int) (base : Nat) : String :=
  if i < 0 then "-" ++ FormatUint i.natAbs base else FormatUint i.toNat base

/-- The function `strconv.Itoa(i)`, which is `FormatInt(int64(i), 10)`. -/
def Itoa (i : Int) : String := FormatInt i 10

/-- The function `strings.Join(elems, sep)`. -/
def Join : List String → String → String
  | [], _ => ""
  | [a], _ => a
  | a :: b :: rest, sep => a ++ sep ++ Join (b :: rest) sep

/-- The function `strings.Repeat(s, count)` for a non-negative count. -/
def Repeat (s : String) : Nat → String
  | 0 => ""
  | n + 1 => s ++ Repeat s n

/-- The scan of `strings.Split`: `cur` holds the current token reversed and
`skip` counts the characters of a matched separator still to be passed. -/
def splitAux (sep : List Char) : List Char → List Char → Nat → List String
  | [], cur, _ => [String.mk cur.reverse]
  | _ :: cs, cur, skip + 1 => splitAux sep cs cur skip
  | c :: cs, cur, 0 =>
    if sep.isPrefixOf (c :: cs) then
      String.mk cur.reverse :: splitAux sep cs [] (sep.length - 1)
    else splitAux sep cs (c :: cur) 0

/-- The function `strings.Split(s, sep)` for a non-empty separator: the
substrings between the successive non-overlapping occurrences of `sep`. -/
def Split (s sep : String) : List String := splitAux sep.data s.data [] 0

/-! ## Standard library: `net` -/

/-- The type `net.IP`: a slice of bytes. -/
abbrev NetIP := List Byte

/-- The helper `isZeros` of package `net`. -/
def isZeros (p : NetIP) : Bool := p.all (fun b => b == 0)

/-- The method `net.IP.To4`: a 4-byte address is returned as is, a 16-byte
address with the IPv4-in-IPv6 lead (ten zero bytes, `0xff`, `0xff`) gives its
last four bytes, anything else gives nil (`none`). -/
def To4 (ip : NetIP) : Option NetIP :=
  if ip.length = 4 then some ip
  else if ip.length = 16 ∧ isZeros (ip.take 10) = true ∧ ip[10]? = some 255 ∧ ip[11]? = some 255 then
    some ((ip.drop 12).take 4)
  else none

/-- The method `net.IP.String` on its IPv4 branch: dotted decimal of the four
bytes of `To4`. The empty slice gives `"<nil>"`. The branches for other
lengths and for IPv6 text are outside this model (`none`). -/
def IPString (ip : NetIP) : Option String :=
  if ip.length = 0 then some "<nil>"
  else
    match To4 ip with
    | some [a, b, c, d] =>
      some (FormatUint a.val 10 ++ "." ++ FormatUint b.val 10 ++ "." ++
        FormatUint c.val 10 ++ "." ++ FormatUint d.val 10)
    | _ => none

/-- The loop of `net.CIDRMask`: `l` bytes still to fill, `n` one-bits left. -/
def cidrBytes : Nat → Nat → List Byte
  | 0, _ => []
  | l + 1, n =>
    if n ≥ 8 then 255 :: cidrBytes l (n - 8)
    else toByte (255 - (255 >>> n)) :: cidrBytes l 0

/-- The function `net.CIDRMask(ones, bits)`: nil unless `bits` is 32 or 128
and `ones ≤ bits`; otherwise `bits / 8` bytes whose first `ones` bits are set. -/
def CIDRMask (ones bits : Nat) : Option (List Byte) :=
  if bits ≠ 32 ∧ bits ≠ 128 then none
  else if ones > bits then none
  else some (cidrBytes (bits / 8) ones)

/-- The helper `allFF` of package `net`. -/
def allFF (b : List Byte) : Bool := b.all (fun c => c == 255)

/-- The 12-byte lead `v4InV6Prefix` of an IPv4 address in 16-byte form. -/
def v4InV6Lead : List Byte := [0, 0, 0, 0, 0, 0, 0, 0, 0, 0, 255, 255]

/-- The method `net.IP.Mask`: byte-wise AND of address and mask once both are
brought to the same length; nil (`none`) when the lengths differ. -/
def Mask (ip : NetIP) (mask : List Byte) : Option NetIP :=
  let mask := if mask.length = 16 ∧ ip.length = 4 ∧ allFF (mask.take 12) = true
    then mask.drop 12 else mask
  let ip := if mask.length = 4 ∧ ip.length = 16 ∧ ip.take 12 = v4InV6Lead
    then ip.drop 12 else ip
  if ip.length ≠ mask.length then none
  else some (List.zipWith (fun x m => toByte (x.val &&& m.val)) ip mask)

/-- The builtin `copy(dst, src)`: the first `min (len dst) (len src)` elements
of `dst` are overwritten by those of `src`. -/
def copy (dst src : List Byte) : List Byte :=
  src.take dst.length ++ dst.drop src.length

/-! ## Standard library: `math/rand` -/

/-- The state of the process-wide random source: the raw values it will
produce, and how many have been consumed. -/
structure Source where
  /-- The raw value behind the `i`-th call. -/
  draws : Nat → Nat
  /-- The number of calls made so far. -/
  pos : Nat

/-- The function `rand.Intn(n)` for `n > 0`: a value in `[0, n)`, and the
source advanced by one call. -/
def Intn (n : Nat) (s : Source) : Nat × Source :=
  (s.draws s.pos % n, { s with pos := s.pos + 1 })

/-! ## The package -/

/-- The struct `IPFuscator`. -/
structure IPFuscator where
  /-- IPv4 address in a 4-byte representation. -/
  IP : NetIP
  /-- Per-octet hexadecimal strings. -/
  hex : List String
  /-- Per-octet decimal strings. -/
  ips : List String
  /-- Per-octet octal strings. -/
  octal : List String
deriving DecidableEq, Repr

/-- The two errors of `New`. Their message texts `errNilIP` and
`errCannotConvert` are declared outside the listed sources; only the kind of
failure is kept. -/
inductive NewError where
  | nilIP
  | cannotConvert
deriving DecidableEq, Repr

/-- The result of `New`: an `IPFuscator` or an error. -/
inductive Built where
  | ok (ipf : IPFuscator)
  | error (e : NewError)
deriving DecidableEq, Repr

/-- The constructor `New`. The argument is `none` for a nil `net.IP`. The loop
over `v4` fills `hex[i]`, `ips[i]` and `octal[i]` from byte `i`. -/
def New (ip : Option NetIP) : Built :=
  match ip with
  | none => Built.error NewError.nilIP
  | some ip =>
    match To4 ip with
    | none => Built.error NewError.cannotConvert
    | some v4 =>
      Built.ok
        { IP := v4
          hex := v4.map (fun part => "0x" ++ FormatInt (part.val : Int) 16)
          ips := v4.map (fun part => Itoa (part.val : Int))
          octal := v4.map (fun part => FormatInt (part.val : Int) 8) }

/-- The inner loop of `ToBaseWithPadding`,
`for j := 0; j < rand.Intn(30)+1; j++ { out.WriteString("0") }`:
every evaluation of the condition calls `rand.Intn(30)`. The first argument
bounds the number of evaluations of the condition; `none` means that the
bound was reached before the loop ended (`padLoop_terminates`: 31 is always
enough). -/
def padLoop : Nat → Nat → String → Source → Option (String × Source)
  | 0, _, _, _ => none
  | fuel + 1, j, out, src =>
    if j < (Intn 30 src).1 + 1 then padLoop fuel (j + 1) (out ++ "0") (Intn 30 src).2
    else some (out, (Intn 30 src).2)

/-- The outer loop of `ToBaseWithPadding` over `ipf.ips`, at index `i`. -/
def baseLoop (ipf : IPFuscator) :
    List String → Nat → String → Source → Option (String × Source)
  | [], _, out, src => some (out, src)
  | part :: rest, i, out, src =>
    match (if ipf.ips[i]? = some "0" then padLoop 31 0 (if i > 0 then out ++ "." else out) src
      else some (if i > 0 then out ++ "." else out, src)) with
    | none => none
    | some st => baseLoop ipf rest (i + 1) (st.1 ++ part) st.2

/-- The method `ToBaseWithPadding`: the output and the source after the call. -/
def ToBaseWithPadding (ipf : IPFuscator) (src : Source) : Option (String × Source) :=
  baseLoop ipf ipf.ips 0 "" src

/-- Modelled from the spec: the table `circledDigitsCharset`, declared outside
the listed sources. Entry 0 is U+24EA and entry `d` for `d` in 1..9 is
U+2460 + (d - 1). -/
def circledDigitsCharset : List Char :=
  [Char.ofNat 0x24EA, Char.ofNat 0x2460, Char.ofNat 0x2461, Char.ofNat 0x2462,
   Char.ofNat 0x2463, Char.ofNat 0x2464, Char.ofNat 0x2465, Char.ofNat 0x2466,
   Char.ofNat 0x2467, Char.ofNat 0x2468]

/-- The loop of `ToCircledDigits` over the runes of `ipf.IP.String()`. -/
def circledLoop : List Char → String → Option String
  | [], out => some out
  | digit :: rest, out =>
    if '0' ≤ digit ∧ digit ≤ '9' then
      match circledDigitsCharset[digit.toNat - ('0' : Char).toNat]? with
      | none => none
      | some r => circledLoop rest (out.push r)
    else circledLoop rest (out.push digit)

/-- The method `ToCircledDigits`. -/
def ToCircledDigits (ipf : IPFuscator) : Option String :=
  match IPString ipf.IP with
  | none => none
  | some s => circledLoop s.data ""

/-- The method `ToDecimal`. -/
def ToDecimal (ipf : IPFuscator) : Option String :=
  match ipf.IP[0]?, ipf.IP[1]?, ipf.IP[2]?, ipf.IP[3]? with
  | some a, some b, some c, some d =>
    let dec := (a.val <<< 24) % 2 ^ 32 ||| (b.val <<< 16) % 2 ^ 32 |||
      (c.val <<< 8) % 2 ^ 32 ||| d.val
    some (FormatUint dec 10)
  | _, _, _, _ => none

/-- The method `ToHex`. -/
def ToHex (ipf : IPFuscator) : String := Join ipf.hex "."

/-- The loop of `ToHexWithPadding` over the indices of `ipf.hex`. -/
def hexPadLoop (ipf : IPFuscator) :
    List Nat → String → Source → Option (String × Source)
  | [], out, src => some (out, src)
  | i :: rest, out, src =>
    match ipf.hex[i]? with
    | none => none
    | some h =>
      match (Split h "0x")[1]? with
      | none => none
      | some h1 =>
        hexPadLoop ipf rest
          ((if i > 0 then out ++ "." else out) ++ "0x" ++
            Repeat "0" ((Intn 30 src).1 + 1) ++ h1)
          (Intn 30 src).2

/-- The method `ToHexWithPadding`: the output and the source after the call. -/
def ToHexWithPadding (ipf : IPFuscator) (src : Source) : Option (String × Source) :=
  hexPadLoop ipf (List.range ipf.hex.length) "" src

/-- The method `ToIPv6CompatibleV4`. -/
def ToIPv6CompatibleV4 (ipf : IPFuscator) : Option String :=
  (IPString ipf.IP).map (fun s => "[::ffff:" ++ s ++ "]")

/-- The loop of `ToNoZeros` over `ipf.IP`, at index `i`. -/
def noZerosLoop (ipf : IPFuscator) : List Byte → Nat → String → Option String
  | [], _, out => some out
  | part :: rest, i, out =>
    if part.val = 0 then noZerosLoop ipf rest (i + 1) out
    else
      let out1 := if i > 0 then out ++ "." else out
      match ipf.ips[i]? with
      | none => none
      | some s => noZerosLoop ipf rest (i + 1) (out1 ++ s)

/-- The method `ToNoZeros`. -/
def ToNoZeros (ipf : IPFuscator) : Option String :=
  noZerosLoop ipf ipf.IP 0 ""

/-- The method `ToOctal`. -/
def ToOctal (ipf : IPFuscator) : String := "0" ++ Join ipf.octal "."

/-- The loop of `ToOctalWithPadding` over the indices of `ipf.hex`. -/
def octalPadLoop (ipf : IPFuscator) :
    List Nat → String → Source → Option (String × Source)
  | [], out, src => some (out, src)
  | i :: rest, out, src =>
    match ipf.octal[i]? with
    | none => none
    | some o =>
      octalPadLoop ipf rest
        ((if i > 0 then out ++ "." else out) ++ Repeat "0" ((Intn 30 src).1 + 1) ++ o)
        (Intn 30 src).2

/-- The method `ToOctalWithPadding`: the output and the source after the call. -/
def ToOctalWithPadding (ipf : IPFuscator) (src : Source) : Option (String × Source) :=
  octalPadLoop ipf (List.range ipf.hex.length) "" src

/-- The method `ToRand8Bits`: the output and the source after the call. A nil
mask or a nil result of `Mask` is the empty slice for `copy`. -/
def ToRand8Bits (ipf : IPFuscator) (src : Source) : Option (String × Source) :=
  let mask := CIDRMask 8 32
  let ip := copy (List.replicate 4 0) ((Mask ipf.IP (mask.getD [])).getD [])
  (IPString (ip.set 3 (toByte (Intn 255 src).1))).map (fun s => (s, (Intn 255 src).2))

/-- The loop of `genRandBase` over the indices of `ipf.ips`. A draw outside
the three cases of the switch writes nothing. -/
def randBaseLoop (ipf : IPFuscator) :
    List Nat → String → Source → Option (String × Source)
  | [], out, src => some (out, src)
  | i :: rest, out, src =>
    if (Intn 3 src).1 = 0 then
      match ipf.ips[i]? with
      | none => none
      | some s => randBaseLoop ipf rest ((if i > 0 then out ++ "." else out) ++ s) (Intn 3 src).2
    else if (Intn 3 src).1 = 1 then
      match ipf.hex[i]? with
      | none => none
      | some s => randBaseLoop ipf rest ((if i > 0 then out ++ "." else out) ++ s) (Intn 3 src).2
    else if (Intn 3 src).1 = 2 then
      match ipf.octal[i]? with
      | none => none
      | some s =>
        randBaseLoop ipf rest
          ((if i = 0 then (if i > 0 then out ++ "." else out) ++ "0"
            else (if i > 0 then out ++ "." else out)) ++ s)
          (Intn 3 src).2
    else randBaseLoop ipf rest (if i > 0 then out ++ "." else out) (Intn 3 src).2

/-- The method `genRandBase`. -/
def genRandBase (ipf : IPFuscator) (src : Source) : Option (String × Source) :=
  randBaseLoop ipf (List.range ipf.ips.length) "" src

/-- The method `ToRandBase`: the output and the source after the call. -/
def ToRandBase (ipf : IPFuscator) (src : Source) : Option (String × Source) :=
  genRandBase ipf src

/-- The method `genRandBaseWithPadding`: one draw selects the generator, whose
output is written to an empty builder. -/
def genRandBaseWithPadding (ipf : IPFuscator) (src : Source) : Option (String × Source) :=
  if (Intn 3 src).1 = 0 then
    (ToBaseWithPadding ipf (Intn 3 src).2).map (fun r => ("" ++ r.1, r.2))
  else if (Intn 3 src).1 = 1 then
    (ToHexWithPadding ipf (Intn 3 src).2).map (fun r => ("" ++ r.1, r.2))
  else if (Intn 3 src).1 = 2 then
    (ToOctalWithPadding ipf (Intn 3 src).2).map (fun r => ("" ++ r.1, r.2))
  else some ("", (Intn 3 src).2)

/-- The method `ToRandBaseWithPadding`: the output and the source after the call. -/
def ToRandBaseWithPadding (ipf : IPFuscator) (src : Source) : Option (String × Source) :=
  genRandBaseWithPadding ipf src

/-! ## Reading the outputs back

The claims speak of parsing a token in a base and of splitting an output on
the separator; these are the readers they are checked against. -/

/-- The value of a digit character, as `strconv.ParseUint` reads it. -/
def digitVal (c : Char) : Option Nat :=
  if '0' ≤ c ∧ c ≤ '9' then some (c.toNat - 48)
  else if 'a' ≤ c ∧ c ≤ 'z' then some (c.toNat - 97 + 10)
  else if 'A' ≤ c ∧ c ≤ 'Z' then some (c.toNat - 65 + 10)
  else none

/-- The digits of a number read most significant first, from accumulator
`acc`; `none` at a character that is not a digit of the base. -/
def parseDigits (base : Nat) : List Char → Nat → Option Nat
  | [], acc => some acc
  | c :: cs, acc =>
    match digitVal c with
    | none => none
    | some d => if d < base then parseDigits base cs (acc * base + d) else none

/-- The function `strconv.ParseUint(s, base, bitSize)` for an explicit base: `none`
for the empty string, for a character that is not a digit of the base, and
for a value that does not fit in `bitSize` bits. -/
def ParseUint (s : String) (base bitSize : Nat) : Option Nat :=
  if s.data = [] then none
  else
    match parseDigits base s.data 0 with
    | none => none
    | some v => if v < 2 ^ bitSize then some v else none

/-- The four big-endian bytes of a 32-bit value. -/
def bigEndianBytes (v : Nat) : List Nat :=
  [v / 2 ^ 24 % 256, v / 2 ^ 16 % 256, v / 2 ^ 8 % 256, v % 256]

/-- The string `s` with the leading string `p` removed; `none` when `s` does
not start with `p`. -/
def dropLeading (p s : String) : Option String :=
  if p.data.isPrefixOf s.data then some (String.mk (s.data.drop p.data.length)) else none

/-- The predicate `unicode.IsSpace`: the white-space code points of Unicode. -/
def isSpace (c : Char) : Bool :=
  (9 ≤ c.toNat && c.toNat ≤ 13) || c.toNat = 0x20 || c.toNat = 0x85 || c.toNat = 0xA0 ||
  c.toNat = 0x1680 || (0x2000 ≤ c.toNat && c.toNat ≤ 0x200A) || c.toNat = 0x2028 ||
  c.toNat = 0x2029 || c.toNat = 0x202F || c.toNat = 0x205F || c.toNat = 0x3000

/-- The string contains no white-space character. -/
def noSpace (s : String) : Prop := ∀ c ∈ s.data, isSpace c = false

instance (s : String) : Decidable (noSpace s) := by
  unfold noSpace; infer_instance

/-- The result of the `i`-th next call `rand.Intn(n)` on the source. -/
def draw (n : Nat) (src : Source) (i : Nat) : Nat := src.draws (src.pos + i) % n

/-- The source after `k` more calls. -/
def advance (src : Source) (k : Nat) : Source := { src with pos := src.pos + k }

/-- The circled form of a character, in the spec's words: U+24EA for the digit
0, U+2460 + (d - 1) for a digit d in 1..9, and the character itself otherwise. -/
def circledOf (c : Char) : Char :=
  if c = '0' then Char.ofNat 0x24EA
  else if '1' ≤ c ∧ c ≤ '9' then Char.ofNat (0x2460 + (c.toNat - ('0' : Char).toNat - 1))
  else c

/-- The text has two '.' characters next to each other. -/
def adjacentDots : List Char → Bool
  | [] => false
  | c :: rest => (c == '.' && rest.head? == some '.') || adjacentDots rest

/-- The tokens `toks` with a "0" put back at the index of every zero octet. -/
def reinsertZeros : List Byte → List String → List String
  | [], _ => []
  | x :: xs, toks =>
    if x.val = 0 then "0" :: reinsertZeros xs toks
    else
      match toks with
      | [] => reinsertZeros xs []
      | t :: ts => t :: reinsertZeros xs ts

/-- The text that one pass of the loop of `genRandBase` writes after the
separator, at index `i` for the draw `s`. -/
def randBaseToken (ipf : IPFuscator) (i s : Nat) : Option String :=
  if s = 0 then ipf.ips[i]?
  else if s = 1 then ipf.hex[i]?
  else if s = 2 then (ipf.octal[i]?).map (fun o => if i = 0 then "0" ++ o else o)
  else some ""

/-- What one pass of the loop of `ToBaseWithPadding` does for the octet `x`
when the source is `src`: it writes the token `t` and makes `n` draws. A
non-zero octet gives its decimal string and no draw. A zero octet gives `k`
pad zeros followed by "0" and `k + 1` draws, where `k`, between 1 and 30, is
the least number whose draw is below it. -/
def padToken (x : Byte) (src : Source) (t : String) (n : Nat) : Prop :=
  (x.val ≠ 0 ∧ t = FormatUint x.val 10 ∧ n = 0) ∨
  (x.val = 0 ∧ ∃ k, 1 ≤ k ∧ k ≤ 30 ∧ draw 30 src k < k ∧
    (∀ j, j < k → ¬ draw 30 src j < j) ∧ t = Repeat "0" k ++ "0" ∧ n = k + 1)

/-- What `genRandBase` writes at index `i` for the octet `x` when its draw is
`s`, and how the token `t` reads back: for `s = 0` the token is `ips[i]` and
parses in base 10; for `s = 1` it is `hex[i]` and parses in base 16 after its
"0x"; for `s = 2` it is `octal[i]`, with a single "0" in front exactly at
index 0, and parses in base 8. -/
def randToken (ipf : IPFuscator) (i : Nat) (x : Byte) (s : Nat) (t : String) : Prop :=
  (s = 0 → ipf.ips[i]? = some t ∧ ParseUint t 10 8 = some x.val) ∧
  (s = 1 → ipf.hex[i]? = some t ∧
    (dropLeading "0x" t).bind (fun r => ParseUint r 16 8) = some x.val) ∧
  (s = 2 → ∃ o, ipf.octal[i]? = some o ∧ t = (if i = 0 then "0" ++ o else o) ∧
    ParseUint t 8 8 = some x.val)

/-- The address whose four octets are `a`, `b`, `c`, `d`, in 4-byte form. -/
def addr4 (a b c d : Byte) : Option NetIP := some [a, b, c, d]

/-- The address `a.b.c.d` in the 16-byte form that `net.ParseIP` returns. -/
def addr16 (a b c d : Byte) : Option NetIP := some (v4InV6Lead ++ [a, b, c, d])

/-- The value that `New` returns for the octets `a`, `b`, `c`, `d`
(`New_addr4`, `New_addr16`, `New_ok_shape`). -/
def model (a b c d : Byte) : IPFuscator :=
  { IP := [a, b, c, d]
    hex := [a, b, c, d].map (fun part => "0x" ++ FormatInt (part.val : Int) 16)
    ips := [a, b, c, d].map (fun part => Itoa (part.val : Int))
    octal := [a, b, c, d].map (fun part => FormatInt (part.val : Int) 8) }

/-- A source whose first raw value is 5 and whose later raw values are 0. -/
def fiveThenZero : Source := ⟨fun i => if i = 0 then 5 else 0, 0⟩

/-- A source whose raw values are all 7. -/
def allSeven : Source := ⟨fun _ => 7, 0⟩

/-! ## `New` and `net.IP.To4` -/

theorem To4_length_four (a b c d : Byte) : To4 [a, b, c, d] = some [a, b, c, d] := by
  simp [To4]

theorem To4_mapped (a b c d : Byte) :
    To4 (v4InV6Lead ++ [a, b, c, d]) = some [a, b, c, d] := by
  simp [To4, v4InV6Lead, isZeros]

theorem To4_eq_none_iff (p : NetIP) :
    To4 p = none ↔ ¬ (p.length = 4 ∨ (p.length = 16 ∧ p.take 12 = v4InV6Lead)) := by
  unfold To4
  by_cases h4 : p.length = 4
  · simp [h4]
  · by_cases h16 : p.length = 16
    · rcases p with _ | ⟨x0, _ | ⟨x1, _ | ⟨x2, _ | ⟨x3, _ | ⟨x4, _ | ⟨x5, _ | ⟨x6, _ | ⟨x7,
        _ | ⟨x8, _ | ⟨x9, _ | ⟨x10, _ | ⟨x11, _ | ⟨x12, _ | ⟨x13, _ | ⟨x14, _ | ⟨x15,
        _ | ⟨x16, t⟩⟩⟩⟩⟩⟩⟩⟩⟩⟩⟩⟩⟩⟩⟩⟩⟩ <;>
        simp at h16
      simp [isZeros, v4InV6Lead]
    · simp [h4, h16]

theorem To4_some_length (p v : NetIP) (h : To4 p = some v) : v.length = 4 := by
  unfold To4 at h
  split at h
  · simp at h; subst h; assumption
  · split at h
    · rename_i h16
      simp at h; subst h
      simp [h16.1]
    · simp at h

/-- The shape of every value that `New` returns: four bytes and their three
renderings. -/
theorem New_ok_shape (ip : Option NetIP) (ipf : IPFuscator) (h : New ip = Built.ok ipf) :
    ∃ a b c d : Byte, ipf = model a b c d := by
  cases ip with
  | none => simp [New] at h
  | some p =>
    simp only [New] at h
    cases hv : To4 p with
    | none => simp [hv] at h
    | some v =>
      have hl := To4_some_length p v hv
      simp only [hv, Built.ok.injEq] at h
      rcases v with _ | ⟨a, _ | ⟨b, _ | ⟨c, _ | ⟨d, _ | ⟨e, t⟩⟩⟩⟩⟩ <;> simp at hl
      exact ⟨a, b, c, d, h.symm⟩

theorem New_addr4 (a b c d : Byte) : New (addr4 a b c d) = Built.ok (model a b c d) := by
  simp only [New, addr4, To4_length_four, model]

theorem New_addr16 (a b c d : Byte) : New (addr16 a b c d) = Built.ok (model a b c d) := by
  simp only [New, addr16, To4_mapped, model]

/-! ## The bound of the padding loop -/

/-- The padding loop ends within 31 evaluations of its condition: a draw is
below 30, so the condition fails at `j = 30` at the latest. -/
theorem padLoop_terminates (out : String) (src : Source) :
    ∀ fuel j, 31 ≤ fuel + j → j ≤ 30 → ∃ r, padLoop fuel j out src = some r := by
  intro fuel
  induction fuel generalizing out src with
  | zero => intro j h1 h2; omega
  | succ fuel ih =>
    intro j h1 h2
    rw [padLoop]
    have hlt : (Intn 30 src).1 < 30 := Nat.mod_lt _ (by decide)
    split
    · exact ih _ _ (j + 1) (by omega) (by omega)
    · exact ⟨_, rfl⟩

/-! ## Digits -/

theorem toDigitsCore_append (b : Nat) :
    ∀ fuel n acc, Nat.toDigitsCore b fuel n acc = Nat.toDigitsCore b fuel n [] ++ acc := by
  intro fuel
  induction fuel with
  | zero => intro n acc; simp [Nat.toDigitsCore]
  | succ fuel ih =>
    intro n acc
    simp only [Nat.toDigitsCore]
    split
    · simp
    · rw [ih (n / b) (Nat.digitChar (n % b) :: acc), ih (n / b) [Nat.digitChar (n % b)]]
      simp

theorem toDigitsCore_fuel (b : Nat) (hb : 2 ≤ b) :
    ∀ f1 f2 n, n < f1 → n < f2 → Nat.toDigitsCore b f1 n [] = Nat.toDigitsCore b f2 n [] := by
  intro f1
  induction f1 with
  | zero => intro f2 n h1; omega
  | succ f1 ih =>
    intro f2 n h1 h2
    cases f2 with
    | zero => omega
    | succ f2 =>
      simp only [Nat.toDigitsCore]
      split
      · rfl
      · rename_i hq
        have hpos : 0 < n := by
          rcases Nat.eq_zero_or_pos n with h0 | h0
          · subst h0; simp at hq
          · exact h0
        have hlt : n / b < n := Nat.div_lt_self hpos (by omega)
        rw [toDigitsCore_append b f1, toDigitsCore_append b f2,
          ih f2 (n / b) (by omega) (by omega)]

theorem toDigits_small (b n : Nat) (h : n < b) : Nat.toDigits b n = [Nat.digitChar n] := by
  simp [Nat.toDigits, Nat.toDigitsCore, Nat.div_eq_of_lt h, Nat.mod_eq_of_lt h]

theorem toDigits_step (b n : Nat) (hb : 2 ≤ b) (h : b ≤ n) :
    Nat.toDigits b n = Nat.toDigits b (n / b) ++ [Nat.digitChar (n % b)] := by
  have hq : n / b ≠ 0 := by
    have : 0 < n / b := Nat.div_pos h (by omega)
    omega
  have hlt : n / b < n := Nat.div_lt_self (by omega) (by omega)
  have e1 : Nat.toDigitsCore b (n + 1) n [] =
      Nat.toDigitsCore b n (n / b) [Nat.digitChar (n % b)] := by
    rw [Nat.toDigitsCore]
    simp [hq]
  unfold Nat.toDigits
  rw [e1, toDigitsCore_append b n, toDigitsCore_fuel b hb n (n / b + 1) (n / b) hlt (by omega)]

theorem toDigits_ne_nil (b n : Nat) (hb : 2 ≤ b) : Nat.toDigits b n ≠ [] := by
  by_cases h : n < b
  · simp [toDigits_small b n h]
  · simp [toDigits_step b n hb (by omega)]

theorem digitVal_digitChar : ∀ d, d < 16 → digitVal (Nat.digitChar d) = some d := by
  decide

theorem digitChar_zero_only : ∀ d, d < 16 → Nat.digitChar d = '0' → d = 0 := by
  decide

theorem parseDigits_append (b : Nat) :
    ∀ xs ys acc, parseDigits b (xs ++ ys) acc = (parseDigits b xs acc).bind (parseDigits b ys) := by
  intro xs
  induction xs with
  | nil => intro ys acc; simp [parseDigits]
  | cons x xs ih =>
    intro ys acc
    simp only [List.cons_append, parseDigits]
    cases digitVal x with
    | none => simp
    | some d =>
      simp only
      split
      · exact ih ys _
      · simp

theorem parseDigits_toDigits (b : Nat) (hb : 2 ≤ b) (hb16 : b ≤ 16) :
    ∀ n, parseDigits b (Nat.toDigits b n) 0 = some n := by
  intro n
  induction n using Nat.strong_induction_on with
  | _ n ih =>
    by_cases h : n < b
    · rw [toDigits_small b n h]
      simp [parseDigits, digitVal_digitChar n (by omega), h]
    · have hlt : n / b < n := Nat.div_lt_self (by omega) (by omega)
      have hm : n % b < b := Nat.mod_lt _ (by omega)
      rw [toDigits_step b n hb (by omega), parseDigits_append, ih (n / b) hlt]
      simp only [Option.some_bind, parseDigits, digitVal_digitChar (n % b) (by omega), hm, if_true]
      rw [Nat.div_add_mod']

theorem toDigits_head_zero (b : Nat) (hb : 2 ≤ b) (hb16 : b ≤ 16) :
    ∀ n, (Nat.toDigits b n).head? = some '0' → n = 0 := by
  intro n
  induction n using Nat.strong_induction_on with
  | _ n ih =>
    intro hh
    by_cases h : n < b
    · rw [toDigits_small b n h] at hh
      simp only [List.head?_cons, Option.some.injEq] at hh
      exact digitChar_zero_only n (by omega) hh
    · have hlt : n / b < n := Nat.div_lt_self (by omega) (by omega)
      rw [toDigits_step b n hb (by omega)] at hh
      have hne := toDigits_ne_nil b (n / b) hb
      rw [List.head?_append_of_ne_nil _ hne] at hh
      have := ih (n / b) hlt hh
      have : 0 < n / b := Nat.div_pos (by omega) (by omega)
      omega


theorem FormatInt_natCast (n b : Nat) : FormatInt (n : Int) b = FormatUint n b := by
  have h : ¬ ((n : Int) < 0) := by omega
  simp [FormatInt, h]

theorem Itoa_natCast (n : Nat) : Itoa (n : Int) = FormatUint n 10 := by
  simp [Itoa, FormatInt_natCast]

theorem ParseUint_FormatUint (b bits n : Nat) (hb : 2 ≤ b) (hb16 : b ≤ 16)
    (hn : n < 2 ^ bits) : ParseUint (FormatUint n b) b bits = some n := by
  simp [ParseUint, FormatUint, toDigits_ne_nil b n hb, parseDigits_toDigits b hb hb16 n, hn]

theorem dropLeading_append (p s : String) : dropLeading p (p ++ s) = some s := by
  simp [dropLeading, String.data_append]

/-! ## Splitting on the separator -/

theorem splitAux_dot_free (t rest cur : List Char) (h : '.' ∉ t) :
    splitAux ['.'] (t ++ rest) cur 0 = splitAux ['.'] rest (t.reverse ++ cur) 0 := by
  induction t generalizing cur with
  | nil => simp
  | cons c t ih =>
    have hc : c ≠ '.' := fun e => h (by simp [e])
    have ht : '.' ∉ t := fun e => h (by simp [e])
    have hp : List.isPrefixOf ['.'] (c :: (t ++ rest)) = false := by
      simp [List.isPrefixOf, hc.symm]
    rw [List.cons_append, splitAux, hp]
    simp only [Bool.false_eq_true, if_false]
    rw [ih (c :: cur) ht]
    simp

theorem splitAux_dot (rest cur : List Char) :
    splitAux ['.'] ('.' :: rest) cur 0 = String.mk cur.reverse :: splitAux ['.'] rest [] 0 := by
  simp [splitAux, List.isPrefixOf]

theorem Split_token (t : String) (h : '.' ∉ t.data) : Split t "." = [t] := by
  have := splitAux_dot_free t.data [] [] h
  simp only [List.append_nil] at this
  simp [Split, this, splitAux]

theorem Split_token_dot (t rest : String) (h : '.' ∉ t.data) :
    Split (t ++ "." ++ rest) "." = t :: Split rest "." := by
  have h1 := splitAux_dot_free t.data ('.' :: rest.data) [] h
  simp only [List.append_nil] at h1
  simp only [Split, String.data_append]
  have e : t.data ++ ['.'] ++ rest.data = t.data ++ '.' :: rest.data := by
    rw [List.append_assoc]; rfl
  rw [e, h1, splitAux_dot]
  simp

theorem Split_four (t0 t1 t2 t3 : String) (h0 : '.' ∉ t0.data) (h1 : '.' ∉ t1.data)
    (h2 : '.' ∉ t2.data) (h3 : '.' ∉ t3.data) :
    Split (Join [t0, t1, t2, t3] ".") "." = [t0, t1, t2, t3] := by
  simp only [Join]
  rw [Split_token_dot t0 _ h0, Split_token_dot t1 _ h1, Split_token_dot t2 _ h2,
    Split_token t3 h3]

set_option maxRecDepth 100000 in
/-- What the three renderings of one byte look like. -/
theorem octet_shape : ∀ x : Byte,
    ((1 ≤ (FormatUint x.val 16).length ∧ (FormatUint x.val 16).length ≤ 2) ∧
      (∀ c ∈ (FormatUint x.val 16).data, ('0' ≤ c ∧ c ≤ '9') ∨ ('a' ≤ c ∧ c ≤ 'f')) ∧
      ((FormatUint x.val 16).data.head? = some '0' → x.val = 0) ∧
      (x.val = 0 → FormatUint x.val 16 = "0")) ∧
    ((1 ≤ (FormatUint x.val 8).length ∧ (FormatUint x.val 8).length ≤ 3) ∧
      (∀ c ∈ (FormatUint x.val 8).data, '0' ≤ c ∧ c ≤ '7') ∧
      ((FormatUint x.val 8).data.head? = some '0' → x.val = 0) ∧
      (x.val = 0 → FormatUint x.val 8 = "0")) ∧
    ((1 ≤ (FormatUint x.val 10).length ∧ (FormatUint x.val 10).length ≤ 3) ∧
      (∀ c ∈ (FormatUint x.val 10).data, '0' ≤ c ∧ c ≤ '9') ∧
      ((FormatUint x.val 10).data.head? = some '0' → x.val = 0) ∧
      (x.val = 0 → FormatUint x.val 10 = "0")) := by
  decide

set_option maxRecDepth 100000 in
/-- No rendering of a byte contains the separator. -/
theorem octet_dot_free : ∀ x : Byte,
    '.' ∉ (FormatUint x.val 16).data ∧ '.' ∉ ("0x" ++ FormatUint x.val 16).data ∧
    '.' ∉ (FormatUint x.val 8).data ∧ '.' ∉ (FormatUint x.val 10).data := by
  decide

/-! ## The 32-bit value of an address -/

theorem lor_octets (a b c d : Nat) (ha : a < 256) (hb : b < 256) (hc : c < 256)
    (hd : d < 256) :
    (a <<< 24) % 2 ^ 32 ||| (b <<< 16) % 2 ^ 32 ||| (c <<< 8) % 2 ^ 32 ||| d
      = a * 2 ^ 24 + b * 2 ^ 16 + c * 2 ^ 8 + d := by
  have e1 : (a <<< 24) % 2 ^ 32 = 2 ^ 24 * a := by
    rw [Nat.shiftLeft_eq, Nat.mod_eq_of_lt (by omega)]; omega
  have e2 : (b <<< 16) % 2 ^ 32 = 2 ^ 16 * b := by
    rw [Nat.shiftLeft_eq, Nat.mod_eq_of_lt (by omega)]; omega
  have e3 : (c <<< 8) % 2 ^ 32 = 2 ^ 8 * c := by
    rw [Nat.shiftLeft_eq, Nat.mod_eq_of_lt (by omega)]; omega
  rw [e1, e2, e3]
  have s1 : 2 ^ 24 * a ||| 2 ^ 16 * b = 2 ^ 16 * (2 ^ 8 * a + b) := by
    rw [← Nat.mul_add_lt_is_or (by omega) a]; omega
  have s2 : 2 ^ 16 * (2 ^ 8 * a + b) ||| 2 ^ 8 * c = 2 ^ 8 * (2 ^ 8 * (2 ^ 8 * a + b) + c) := by
    rw [← Nat.mul_add_lt_is_or (by omega) (2 ^ 8 * a + b)]; omega
  rw [s1, s2, ← Nat.mul_add_lt_is_or (by omega) _]
  omega

theorem ToDecimal_model (a b c d : Byte) :
    ToDecimal (model a b c d)
      = some (FormatUint (a.val * 2 ^ 24 + b.val * 2 ^ 16 + c.val * 2 ^ 8 + d.val) 10) := by
  simp only [ToDecimal, model, List.getElem?_cons_zero, List.getElem?_cons_succ]
  rw [lor_octets a.val b.val c.val d.val a.isLt b.isLt c.isLt d.isLt]

theorem FormatUint_injective (b : Nat) (hb : 2 ≤ b) (hb16 : b ≤ 16) (m n : Nat)
    (h : FormatUint m b = FormatUint n b) : m = n := by
  have hm := parseDigits_toDigits b hb hb16 m
  have hn := parseDigits_toDigits b hb hb16 n
  have hd : Nat.toDigits b m = Nat.toDigits b n := congrArg String.data h
  rw [hd, hn] at hm
  exact (Option.some.inj hm).symm

theorem octets_of_sum (a b c d : Nat) (ha : a < 256) (hb : b < 256) (hc : c < 256)
    (hd : d < 256) :
    a * 2 ^ 24 + b * 2 ^ 16 + c * 2 ^ 8 + d < 2 ^ 32 ∧
    bigEndianBytes (a * 2 ^ 24 + b * 2 ^ 16 + c * 2 ^ 8 + d) = [a, b, c, d] := by
  refine ⟨by omega, ?_⟩
  simp only [bigEndianBytes, List.cons.injEq, and_true]
  refine ⟨?_, ?_, ?_, ?_⟩ <;> omega

/-! ## The joined forms -/

theorem ToOctal_model (a b c d : Byte) :
    ToOctal (model a b c d) = "0" ++ Join [FormatUint a.val 8, FormatUint b.val 8,
      FormatUint c.val 8, FormatUint d.val 8] "." := by
  simp [ToOctal, model, FormatInt_natCast]

theorem ToHex_model (a b c d : Byte) :
    ToHex (model a b c d) = Join ["0x" ++ FormatUint a.val 16, "0x" ++ FormatUint b.val 16,
      "0x" ++ FormatUint c.val 16, "0x" ++ FormatUint d.val 16] "." := by
  simp [ToHex, model, FormatInt_natCast]

/-! ## White space and emptiness -/

theorem noSpace_append (s t : String) : noSpace (s ++ t) ↔ noSpace s ∧ noSpace t := by
  simp only [noSpace, String.data_append, List.mem_append]
  constructor
  · intro h
    exact ⟨fun c hc => h c (Or.inl hc), fun c hc => h c (Or.inr hc)⟩
  · rintro ⟨h1, h2⟩ c (hc | hc)
    · exact h1 c hc
    · exact h2 c hc

theorem noSpace_push (s : String) (c : Char) :
    noSpace (s.push c) ↔ noSpace s ∧ isSpace c = false := by
  simp only [noSpace, String.push, List.mem_append, List.mem_singleton]
  constructor
  · intro h
    exact ⟨fun x hx => h x (Or.inl hx), h c (Or.inr rfl)⟩
  · rintro ⟨h1, h2⟩ x (hx | hx)
    · exact h1 x hx
    · rw [hx]; exact h2

theorem noSpace_Repeat_zero (k : Nat) : noSpace (Repeat "0" k) := by
  induction k with
  | zero => intro c hc; simp [Repeat] at hc
  | succ k ih =>
    rw [Repeat, noSpace_append]
    exact ⟨by decide, ih⟩

theorem toDigits_chars (b : Nat) (hb : 2 ≤ b) :
    ∀ n, ∀ c ∈ Nat.toDigits b n, ∃ m, m < b ∧ c = Nat.digitChar m := by
  intro n
  induction n using Nat.strong_induction_on with
  | _ n ih =>
    intro c hc
    by_cases h : n < b
    · rw [toDigits_small b n h] at hc
      exact ⟨n, h, by simpa using hc⟩
    · have hlt : n / b < n := Nat.div_lt_self (by omega) (by omega)
      rw [toDigits_step b n hb (by omega)] at hc
      rcases List.mem_append.mp hc with h1 | h1
      · exact ih (n / b) hlt c h1
      · exact ⟨n % b, Nat.mod_lt _ (by omega), by simpa using h1⟩

theorem digitChar_no_space : ∀ m, m < 16 → isSpace (Nat.digitChar m) = false := by
  decide

theorem noSpace_FormatUint (n b : Nat) (hb : 2 ≤ b) (hb16 : b ≤ 16) :
    noSpace (FormatUint n b) := by
  intro c hc
  obtain ⟨m, hm, rfl⟩ := toDigits_chars b hb n c hc
  exact digitChar_no_space m (by omega)

theorem length_FormatUint_pos (n b : Nat) (hb : 2 ≤ b) : 0 < (FormatUint n b).length := by
  have := toDigits_ne_nil b n hb
  simp only [FormatUint, String.length]
  exact List.length_pos.mpr this

theorem ne_empty_of_length_pos (s : String) (h : 0 < s.length) : s ≠ "" := by
  rintro rfl
  simp at h

/-! ## The generators on a built value -/

theorem noSpace_octet (x : Byte) (b : Nat) (hb : 2 ≤ b) (hb16 : b ≤ 16) :
    noSpace (FormatInt (x.val : Int) b) := by
  rw [FormatInt_natCast]; exact noSpace_FormatUint _ _ hb hb16

theorem IPString_four (a b c d : Byte) :
    IPString [a, b, c, d] = some (FormatUint a.val 10 ++ "." ++ FormatUint b.val 10 ++ "." ++
      FormatUint c.val 10 ++ "." ++ FormatUint d.val 10) := by
  simp [IPString, To4]

theorem toByte_val_of_lt (n : Nat) (h : n < 256) : (toByte n).val = n := by
  simp [toByte, Nat.mod_eq_of_lt h]

theorem ToRand8Bits_model (a b c d : Byte) (src : Source) :
    ToRand8Bits (model a b c d) src
      = some (FormatUint a.val 10 ++ "." ++ "0" ++ "." ++ "0" ++ "." ++
          FormatUint (Intn 255 src).1 10, (Intn 255 src).2) := by
  have hm : CIDRMask 8 32 = some [255, 0, 0, 0] := by decide
  have ha : a.val &&& 255 = a.val := by
    have h := Nat.and_pow_two_sub_one_eq_mod a.val 8
    have e : (2 : Nat) ^ 8 - 1 = 255 := by decide
    rw [e] at h
    rw [h]
    exact Nat.mod_eq_of_lt a.isLt
  have hk : Mask [a, b, c, d] [255, 0, 0, 0]
      = some [toByte (a.val &&& 255), toByte (b.val &&& 0), toByte (c.val &&& 0),
          toByte (d.val &&& 0)] := by
    simp [Mask]
    rfl
  have hr : (Intn 255 src).1 < 256 := by
    have : (Intn 255 src).1 < 255 := Nat.mod_lt _ (by decide)
    omega
  simp only [ToRand8Bits, hm, Option.getD_some, model]
  rw [hk]
  simp only [Option.getD_some, copy, List.length_replicate, List.take, List.length_cons,
    List.length_nil, List.drop_replicate]
  simp only [Nat.sub_self, List.replicate, List.append_nil, List.set, ha, Nat.and_zero]
  have e : (toByte a.val :: toByte 0 :: toByte 0 :: toByte (Intn 255 src).1 :: [].append [])
      = [toByte a.val, toByte 0, toByte 0, toByte (Intn 255 src).1] := rfl
  rw [e, IPString_four, toByte_val_of_lt _ a.isLt, toByte_val_of_lt _ hr]
  rfl


theorem ToIPv6CompatibleV4_model (a b c d : Byte) :
    ToIPv6CompatibleV4 (model a b c d)
      = some ("[::ffff:" ++ (FormatUint a.val 10 ++ "." ++ FormatUint b.val 10 ++ "." ++
          FormatUint c.val 10 ++ "." ++ FormatUint d.val 10) ++ "]") := by
  simp only [ToIPv6CompatibleV4, model, IPString_four, Option.map_some']

theorem empty_append (s : String) : "" ++ s = s := by
  apply String.ext
  simp [String.data_append]

theorem append_empty (s : String) : s ++ "" = s := by
  apply String.ext
  simp [String.data_append]

/-- The output of `ToNoZeros`, octet by octet: a zero octet contributes
nothing, a non-zero octet its decimal digits, after a '.' at every index but
the first. -/
theorem ToNoZeros_model (a b c d : Byte) :
    ToNoZeros (model a b c d)
      = some ((if a.val = 0 then "" else FormatUint a.val 10) ++
          ((if b.val = 0 then "" else "." ++ FormatUint b.val 10) ++
          ((if c.val = 0 then "" else "." ++ FormatUint c.val 10) ++
          (if d.val = 0 then "" else "." ++ FormatUint d.val 10)))) := by
  by_cases ha : a.val = 0 <;> by_cases hb : b.val = 0 <;> by_cases hc : c.val = 0 <;>
    by_cases hd : d.val = 0 <;>
    simp [ToNoZeros, noZerosLoop, model, ha, hb, hc, hd, Itoa_natCast, empty_append,
      append_empty, String.append_assoc]


/-! ## The loops -/

theorem circled_digit : ∀ m, m < 10 →
    ('0' ≤ Nat.digitChar m ∧ Nat.digitChar m ≤ '9') ∧
    ∃ r, circledDigitsCharset[(Nat.digitChar m).toNat - ('0' : Char).toNat]? = some r ∧
      isSpace r = false := by
  decide

theorem circledLoop_cons (digit : Char) (rest : List Char) (out : String) :
    circledLoop (digit :: rest) out
      = if '0' ≤ digit ∧ digit ≤ '9' then
          match circledDigitsCharset[digit.toNat - ('0' : Char).toNat]? with
          | none => none
          | some r => circledLoop rest (out.push r)
        else circledLoop rest (out.push digit) := rfl

theorem circledLoop_spec (l : List Char)
    (hl : ∀ c ∈ l, c = '.' ∨ ∃ m, m < 10 ∧ c = Nat.digitChar m) :
    ∀ out, noSpace out →
      ∃ s, circledLoop l out = some s ∧ noSpace s ∧ s.length = out.length + l.length := by
  induction l with
  | nil => intro out ho; exact ⟨out, rfl, ho, rfl⟩
  | cons c l ih =>
    intro out ho
    have hl2 : ∀ x ∈ l, x = '.' ∨ ∃ m, m < 10 ∧ x = Nat.digitChar m :=
      fun x hx => hl x (List.mem_cons_of_mem _ hx)
    rcases hl c (List.mem_cons_self _ _) with hc | ⟨m, hm, hc⟩
    · subst hc
      have hnd : ¬ ('0' ≤ '.' ∧ '.' ≤ '9') := by decide
      obtain ⟨s, hs, hns, hlen⟩ := ih hl2 (out.push '.')
        ((noSpace_push _ _).mpr ⟨ho, by decide⟩)
      refine ⟨s, ?_, hns, ?_⟩
      · rw [circledLoop_cons, if_neg hnd]; exact hs
      · rw [hlen, String.length_push, List.length_cons]; omega
    · subst hc
      obtain ⟨hd, r, hr, hsp⟩ := circled_digit m hm
      obtain ⟨s, hs, hns, hlen⟩ := ih hl2 (out.push r) ((noSpace_push _ _).mpr ⟨ho, hsp⟩)
      refine ⟨s, ?_, hns, ?_⟩
      · rw [circledLoop_cons, if_pos hd, hr]; exact hs
      · rw [hlen, String.length_push, List.length_cons]; omega

theorem dotted_chars (a b c d : Byte) :
    ∀ x ∈ (FormatUint a.val 10 ++ "." ++ FormatUint b.val 10 ++ "." ++
        FormatUint c.val 10 ++ "." ++ FormatUint d.val 10).data,
      x = '.' ∨ ∃ m, m < 10 ∧ x = Nat.digitChar m := by
  intro x hx
  simp only [String.data_append, List.mem_append, FormatUint] at hx
  have hd := fun n => toDigits_chars 10 (by decide) n x
  rcases hx with ((((((h | h) | h) | h) | h) | h) | h)
  · exact Or.inr (hd _ h)
  · exact Or.inl (by simpa using h)
  · exact Or.inr (hd _ h)
  · exact Or.inl (by simpa using h)
  · exact Or.inr (hd _ h)
  · exact Or.inl (by simpa using h)
  · exact Or.inr (hd _ h)

theorem ToCircledDigits_model (a b c d : Byte) :
    ∃ s, ToCircledDigits (model a b c d) = some s ∧ noSpace s ∧ s ≠ "" := by
  obtain ⟨s, hs, hns, hlen⟩ := circledLoop_spec _ (dotted_chars a b c d) "" (by decide)
  refine ⟨s, ?_, hns, ?_⟩
  · simp only [ToCircledDigits, model, IPString_four]
    exact hs
  · apply ne_empty_of_length_pos
    rw [hlen]
    have := length_FormatUint_pos a.val 10 (by decide)
    simp only [String.length] at *
    simp only [String.data_append, List.length_append]
    omega

set_option maxRecDepth 100000 in
theorem Split_hex_octet : ∀ x : Byte,
    (Split ("0x" ++ FormatUint x.val 16) "0x")[1]? = some (FormatUint x.val 16) := by
  decide

theorem ToHexWithPadding_model (a b c d : Byte) (src : Source) :
    ∃ k0 k1 k2 k3 src1,
      ToHexWithPadding (model a b c d) src
        = some ("" ++ "0x" ++ Repeat "0" (k0 + 1) ++ FormatUint a.val 16 ++ "." ++
            "0x" ++ Repeat "0" (k1 + 1) ++ FormatUint b.val 16 ++ "." ++
            "0x" ++ Repeat "0" (k2 + 1) ++ FormatUint c.val 16 ++ "." ++
            "0x" ++ Repeat "0" (k3 + 1) ++ FormatUint d.val 16, src1) := by
  refine ⟨(Intn 30 src).1, (Intn 30 (Intn 30 src).2).1,
    (Intn 30 (Intn 30 (Intn 30 src).2).2).1,
    (Intn 30 (Intn 30 (Intn 30 (Intn 30 src).2).2).2).1,
    (Intn 30 (Intn 30 (Intn 30 (Intn 30 src).2).2).2).2, ?_⟩
  have hr : List.range 4 = [0, 1, 2, 3] := by decide
  simp only [ToHexWithPadding, model, List.length_map, List.length_cons, List.length_nil,
    Nat.zero_add, Nat.reduceAdd, hr, hexPadLoop, List.getElem?_cons_zero,
    List.getElem?_cons_succ, List.map_cons, List.map_nil, FormatInt_natCast, Split_hex_octet]
  simp


theorem ToOctalWithPadding_model (a b c d : Byte) (src : Source) :
    ∃ k0 k1 k2 k3 src1,
      ToOctalWithPadding (model a b c d) src
        = some ("" ++ Repeat "0" (k0 + 1) ++ FormatUint a.val 8 ++ "." ++
            Repeat "0" (k1 + 1) ++ FormatUint b.val 8 ++ "." ++
            Repeat "0" (k2 + 1) ++ FormatUint c.val 8 ++ "." ++
            Repeat "0" (k3 + 1) ++ FormatUint d.val 8, src1) := by
  refine ⟨(Intn 30 src).1, (Intn 30 (Intn 30 src).2).1,
    (Intn 30 (Intn 30 (Intn 30 src).2).2).1,
    (Intn 30 (Intn 30 (Intn 30 (Intn 30 src).2).2).2).1,
    (Intn 30 (Intn 30 (Intn 30 (Intn 30 src).2).2).2).2, ?_⟩
  have hr : List.range 4 = [0, 1, 2, 3] := by decide
  simp only [ToOctalWithPadding, model, List.length_map, List.length_cons, List.length_nil,
    Nat.zero_add, Nat.reduceAdd, hr, octalPadLoop, List.getElem?_cons_zero,
    List.getElem?_cons_succ, List.map_cons, List.map_nil, FormatInt_natCast]
  simp

/-- The padding loop appends pad zeros only: its result is the builder it
started from followed by some number of '0' characters. -/
theorem padLoop_result :
    ∀ fuel j out src, 31 ≤ fuel + j → j ≤ 30 →
      ∃ k src1, padLoop fuel j out src = some (out ++ Repeat "0" k, src1) := by
  intro fuel
  induction fuel with
  | zero => intro j out src h1 h2; omega
  | succ fuel ih =>
    intro j out src h1 h2
    rw [padLoop]
    have hlt : (Intn 30 src).1 < 30 := Nat.mod_lt _ (by decide)
    split
    · obtain ⟨k, src1, hk⟩ := ih (j + 1) (out ++ "0") (Intn 30 src).2 (by omega) (by omega)
      refine ⟨k + 1, src1, ?_⟩
      rw [hk, Repeat, String.append_assoc]
    · exact ⟨0, _, by rw [Repeat, append_empty]⟩

theorem baseLoop_spec (ipf : IPFuscator) :
    ∀ parts i out src, noSpace out → (∀ p ∈ parts, noSpace p) →
      ∃ r, baseLoop ipf parts i out src = some r ∧ noSpace r.1 ∧
        out.length + (parts.map String.length).sum ≤ r.1.length := by
  intro parts
  induction parts with
  | nil => intro i out src ho _; exact ⟨(out, src), rfl, ho, by simp⟩
  | cons part rest ih =>
    intro i out src ho hp
    have hpart : noSpace part := hp part (List.mem_cons_self _ _)
    have hrest : ∀ p ∈ rest, noSpace p := fun p h => hp p (List.mem_cons_of_mem _ h)
    have hsep : noSpace (if i > 0 then out ++ "." else out) ∧
        out.length ≤ (if i > 0 then out ++ "." else out).length := by
      split
      · exact ⟨(noSpace_append _ _).mpr ⟨ho, by decide⟩, by simp [String.length_append]⟩
      · exact ⟨ho, le_refl _⟩
    have hstep : ∃ st, (if ipf.ips[i]? = some "0"
          then padLoop 31 0 (if i > 0 then out ++ "." else out) src
          else some (if i > 0 then out ++ "." else out, src)) = some st ∧
        noSpace st.1 ∧ out.length ≤ st.1.length := by
      split
      · obtain ⟨k, src1, hk⟩ := padLoop_result 31 0 (if i > 0 then out ++ "." else out) src
          (by omega) (by omega)
        refine ⟨_, hk, (noSpace_append _ _).mpr ⟨hsep.1, noSpace_Repeat_zero k⟩, ?_⟩
        simp only [String.length_append]
        omega
      · exact ⟨_, rfl, hsep.1, hsep.2⟩
    obtain ⟨st, hst, hns, hlen⟩ := hstep
    obtain ⟨r, hr, hrn, hrl⟩ := ih (i + 1) (st.1 ++ part) st.2
      ((noSpace_append _ _).mpr ⟨hns, hpart⟩) hrest
    refine ⟨r, ?_, hrn, ?_⟩
    · rw [baseLoop, hst]; exact hr
    · simp only [String.length_append, List.map_cons, List.sum_cons] at hrl ⊢
      omega

theorem ToBaseWithPadding_model (a b c d : Byte) (src : Source) :
    ∃ r, ToBaseWithPadding (model a b c d) src = some r ∧ noSpace r.1 ∧ r.1 ≠ "" := by
  have hp : ∀ p ∈ (model a b c d).ips, noSpace p := by
    intro p hp
    simp only [model, List.map_cons, List.map_nil, List.mem_cons, List.mem_singleton,
      List.not_mem_nil, or_false] at hp
    rcases hp with h | h | h | h <;> rw [h] <;>
      exact noSpace_octet _ 10 (by decide) (by decide)
  obtain ⟨r, hr, hn, hl⟩ := baseLoop_spec (model a b c d) (model a b c d).ips 0 "" src
    (by decide) hp
  refine ⟨r, hr, hn, ne_empty_of_length_pos _ ?_⟩
  have h1 := length_FormatUint_pos a.val 10 (by decide)
  simp only [model, List.map_cons, List.map_nil, List.sum_cons, Itoa_natCast] at hl
  omega

theorem model_lookup (a b c d : Byte) (i : Nat) (hi : i < 4) :
    (∃ s, (model a b c d).ips[i]? = some s ∧ noSpace s ∧ 0 < s.length) ∧
    (∃ s, (model a b c d).hex[i]? = some s ∧ noSpace s ∧ 0 < s.length) ∧
    (∃ s, (model a b c d).octal[i]? = some s ∧ noSpace s ∧ 0 < s.length) := by
  have key : ∀ x : Byte,
      (noSpace (Itoa (x.val : Int)) ∧ 0 < (Itoa (x.val : Int)).length) ∧
      (noSpace ("0x" ++ FormatInt (x.val : Int) 16) ∧
        0 < ("0x" ++ FormatInt (x.val : Int) 16).length) ∧
      (noSpace (FormatInt (x.val : Int) 8) ∧ 0 < (FormatInt (x.val : Int) 8).length) := by
    intro x
    refine ⟨⟨?_, ?_⟩, ⟨?_, ?_⟩, ⟨?_, ?_⟩⟩
    · rw [Itoa_natCast]; exact noSpace_FormatUint _ _ (by decide) (by decide)
    · rw [Itoa_natCast]; exact length_FormatUint_pos _ _ (by decide)
    · exact (noSpace_append _ _).mpr ⟨by decide, noSpace_octet x 16 (by decide) (by decide)⟩
    · have h2 : "0x".length = 2 := rfl
      simp only [String.length_append]
      omega
    · exact noSpace_octet x 8 (by decide) (by decide)
    · rw [FormatInt_natCast]; exact length_FormatUint_pos _ _ (by decide)
  interval_cases i
  · exact ⟨⟨_, rfl, (key a).1⟩, ⟨_, rfl, (key a).2.1⟩, ⟨_, rfl, (key a).2.2⟩⟩
  · exact ⟨⟨_, rfl, (key b).1⟩, ⟨_, rfl, (key b).2.1⟩, ⟨_, rfl, (key b).2.2⟩⟩
  · exact ⟨⟨_, rfl, (key c).1⟩, ⟨_, rfl, (key c).2.1⟩, ⟨_, rfl, (key c).2.2⟩⟩
  · exact ⟨⟨_, rfl, (key d).1⟩, ⟨_, rfl, (key d).2.1⟩, ⟨_, rfl, (key d).2.2⟩⟩

theorem randBaseLoop_spec (a b c d : Byte) :
    ∀ idxs out src, (∀ i ∈ idxs, i < 4) → noSpace out →
      ∃ r, randBaseLoop (model a b c d) idxs out src = some r ∧ noSpace r.1 ∧
        out.length + idxs.length ≤ r.1.length := by
  intro idxs
  induction idxs with
  | nil => intro out src _ ho; exact ⟨(out, src), rfl, ho, by simp⟩
  | cons i rest ih =>
    intro out src hi ho
    have hi4 : i < 4 := hi i (List.mem_cons_self _ _)
    have hrest : ∀ j ∈ rest, j < 4 := fun j h => hi j (List.mem_cons_of_mem _ h)
    have hlt : (Intn 3 src).1 < 3 := Nat.mod_lt _ (by decide)
    have hsep : noSpace (if i > 0 then out ++ "." else out) ∧
        out.length ≤ (if i > 0 then out ++ "." else out).length := by
      split
      · exact ⟨(noSpace_append _ _).mpr ⟨ho, by decide⟩, by simp [String.length_append]⟩
      · exact ⟨ho, le_refl _⟩
    obtain ⟨⟨s10, e10, n10, l10⟩, ⟨s16, e16, n16, l16⟩, ⟨s8, e8, n8, l8⟩⟩ :=
      model_lookup a b c d i hi4
    rw [randBaseLoop]
    by_cases h0 : (Intn 3 src).1 = 0
    · rw [if_pos h0, e10]
      obtain ⟨r, hr, hn, hl⟩ := ih ((if i > 0 then out ++ "." else out) ++ s10) (Intn 3 src).2
        hrest ((noSpace_append _ _).mpr ⟨hsep.1, n10⟩)
      refine ⟨r, hr, hn, ?_⟩
      simp only [String.length_append, List.length_cons] at hl ⊢
      omega
    · rw [if_neg h0]
      by_cases h1 : (Intn 3 src).1 = 1
      · rw [if_pos h1, e16]
        obtain ⟨r, hr, hn, hl⟩ := ih ((if i > 0 then out ++ "." else out) ++ s16)
          (Intn 3 src).2 hrest ((noSpace_append _ _).mpr ⟨hsep.1, n16⟩)
        refine ⟨r, hr, hn, ?_⟩
        simp only [String.length_append, List.length_cons] at hl ⊢
        omega
      · have h2 : (Intn 3 src).1 = 2 := by omega
        rw [if_neg h1, if_pos h2, e8]
        have hz : noSpace (if i = 0 then (if i > 0 then out ++ "." else out) ++ "0"
              else (if i > 0 then out ++ "." else out)) ∧
            out.length ≤ (if i = 0 then (if i > 0 then out ++ "." else out) ++ "0"
              else (if i > 0 then out ++ "." else out)).length := by
          split
          · refine ⟨(noSpace_append _ _).mpr ⟨hsep.1, by decide⟩, ?_⟩
            simp only [String.length_append]
            omega
          · exact hsep
        obtain ⟨r, hr, hn, hl⟩ := ih ((if i = 0 then (if i > 0 then out ++ "." else out) ++ "0"
              else (if i > 0 then out ++ "." else out)) ++ s8)
          (Intn 3 src).2 hrest ((noSpace_append _ _).mpr ⟨hz.1, n8⟩)
        refine ⟨r, hr, hn, ?_⟩
        simp only [String.length_append, List.length_cons] at hl ⊢
        omega

theorem ToRandBase_model (a b c d : Byte) (src : Source) :
    ∃ r, ToRandBase (model a b c d) src = some r ∧ noSpace r.1 ∧ r.1 ≠ "" := by
  obtain ⟨r, hr, hn, hl⟩ := randBaseLoop_spec a b c d (List.range 4) "" src
    (by intro i hi; exact List.mem_range.mp hi) (by decide)
  refine ⟨r, hr, hn, ne_empty_of_length_pos _ ?_⟩
  simp only [List.length_range] at hl
  omega

theorem ToRandBaseWithPadding_model (a b c d : Byte) (src : Source) :
    ∃ r, ToRandBaseWithPadding (model a b c d) src = some r ∧ noSpace r.1 ∧ r.1 ≠ "" := by
  have hlt : (Intn 3 src).1 < 3 := Nat.mod_lt _ (by decide)
  simp only [ToRandBaseWithPadding, genRandBaseWithPadding]
  by_cases h0 : (Intn 3 src).1 = 0
  · obtain ⟨r, hr, hn, he⟩ := ToBaseWithPadding_model a b c d (Intn 3 src).2
    refine ⟨(r.1, r.2), ?_, hn, he⟩
    rw [if_pos h0, hr]
    simp [empty_append]
  · rw [if_neg h0]
    by_cases h1 : (Intn 3 src).1 = 1
    · obtain ⟨k0, k1, k2, k3, src1, hr⟩ := ToHexWithPadding_model a b c d (Intn 3 src).2
      rw [if_pos h1, hr]
      refine ⟨_, rfl, ?_, ?_⟩
      · simp only [noSpace_append]
        simp [noSpace_Repeat_zero, noSpace_FormatUint]
        decide
      · apply ne_empty_of_length_pos
        have hx : "0x".length = 2 := rfl
        simp only [String.length_append]
        omega
    · have h2 : (Intn 3 src).1 = 2 := by omega
      obtain ⟨k0, k1, k2, k3, src1, hr⟩ := ToOctalWithPadding_model a b c d (Intn 3 src).2
      rw [if_neg h1, if_pos h2, hr]
      refine ⟨_, rfl, ?_, ?_⟩
      · simp only [noSpace_append]
        simp [noSpace_Repeat_zero, noSpace_FormatUint]
        decide
      · apply ne_empty_of_length_pos
        have := length_FormatUint_pos a.val 8 (by decide)
        simp only [String.length_append]
        omega

theorem eq_empty_iff_length (s : String) : s = "" ↔ s.length = 0 := by
  constructor
  · rintro rfl; rfl
  · intro h
    apply String.ext
    exact List.length_eq_zero.mp h

theorem ToNoZeros_empty_iff (a b c d : Byte) :
    ∃ s, ToNoZeros (model a b c d) = some s ∧ noSpace s ∧
      (s = "" ↔ (model a b c d).IP = [0, 0, 0, 0]) := by
  refine ⟨_, ToNoZeros_model a b c d, ?_, ?_⟩
  · have hf := fun x : Byte => noSpace_FormatUint x.val 10 (by decide) (by decide)
    have he : noSpace "" := by decide
    have hd : noSpace "." := by decide
    simp only [noSpace_append]
    refine ⟨?_, ?_, ?_, ?_⟩ <;> split <;>
      first | exact he | exact hf _ | exact (noSpace_append _ _).mpr ⟨hd, hf _⟩
  · have hl := fun x : Byte => length_FormatUint_pos x.val 10 (by decide)
    have ha := hl a
    have hb := hl b
    have hc := hl c
    have hd := hl d
    have e0 : "".length = 0 := rfl
    rw [eq_empty_iff_length]
    simp only [model, List.cons.injEq, and_true, Fin.ext_iff, String.length_append]
    have z : ((0 : Byte) : Nat) = 0 := rfl
    rw [z]
    constructor
    · intro h
      refine ⟨?_, ?_, ?_, ?_⟩
      · by_contra hne
        rw [if_neg hne] at h
        omega
      · by_contra hne
        rw [if_neg hne] at h
        simp only [String.length_append] at h
        omega
      · by_contra hne
        rw [if_neg hne] at h
        simp only [String.length_append] at h
        omega
      · by_contra hne
        rw [if_neg hne] at h
        simp only [String.length_append] at h
        omega
    · rintro ⟨h1, h2, h3, h4⟩
      rw [if_pos h1, if_pos h2, if_pos h3, if_pos h4]
      rfl

/-! ## The random source -/

theorem Intn_fst (n : Nat) (src : Source) : (Intn n src).1 = draw n src 0 := rfl

theorem Intn_snd (n : Nat) (src : Source) : (Intn n src).2 = advance src 1 := rfl

theorem advance_zero (src : Source) : advance src 0 = src := rfl

theorem advance_advance (src : Source) (j k : Nat) :
    advance (advance src j) k = advance src (j + k) := by
  simp only [advance, Nat.add_assoc]

theorem draw_advance (n : Nat) (src : Source) (j i : Nat) :
    draw n (advance src j) i = draw n src (j + i) := by
  simp only [draw, advance, Nat.add_assoc]

theorem draw_lt (n : Nat) (hn : 0 < n) (src : Source) (i : Nat) : draw n src i < n :=
  Nat.mod_lt _ hn

/-! ## Padded tokens -/

theorem parseDigits_Repeat_zero (b : Nat) (hb : 1 ≤ b) (k : Nat) (l : List Char) :
    parseDigits b ((Repeat "0" k).data ++ l) 0 = parseDigits b l 0 := by
  induction k with
  | zero => rfl
  | succ k ih =>
    have e : (Repeat "0" (k + 1)).data ++ l = '0' :: ((Repeat "0" k).data ++ l) := by
      rw [Repeat, String.data_append]; rfl
    have hd : digitVal '0' = some 0 := by decide
    rw [e, parseDigits, hd]
    simp only
    rw [if_pos (by omega)]
    simpa using ih

theorem ParseUint_padded (b bits n k : Nat) (hb : 2 ≤ b) (hb16 : b ≤ 16)
    (hn : n < 2 ^ bits) : ParseUint (Repeat "0" k ++ FormatUint n b) b bits = some n := by
  have hne : (Repeat "0" k ++ FormatUint n b).data ≠ [] := by
    rw [String.data_append]
    simp [FormatUint, toDigits_ne_nil b n hb]
  rw [ParseUint, if_neg hne, String.data_append,
    parseDigits_Repeat_zero b (by omega) k, FormatUint, parseDigits_toDigits b hb hb16 n]
  simp [hn]

theorem digitChar_not_dot : ∀ m, m < 16 → Nat.digitChar m ≠ '.' := by
  decide

theorem dot_free_FormatUint (n b : Nat) (hb : 2 ≤ b) (hb16 : b ≤ 16) :
    '.' ∉ (FormatUint n b).data := by
  intro h
  obtain ⟨m, hm, e⟩ := toDigits_chars b hb n '.' h
  exact digitChar_not_dot m (by omega) e.symm

theorem dot_free_Repeat_zero (k : Nat) : '.' ∉ (Repeat "0" k).data := by
  induction k with
  | zero => simp [Repeat]
  | succ k ih =>
    rw [Repeat, String.data_append, List.mem_append]
    rintro (h | h)
    · exact absurd h (by decide)
    · exact ih h

theorem dot_free_append (s t : String) (hs : '.' ∉ s.data) (ht : '.' ∉ t.data) :
    '.' ∉ (s ++ t).data := by
  rw [String.data_append, List.mem_append]
  rintro (h | h)
  · exact hs h
  · exact ht h

/-- The output of `ToHexWithPadding` on a built value, draw by draw. -/
theorem ToHexWithPadding_explicit (a b c d : Byte) (src : Source) :
    ToHexWithPadding (model a b c d) src
      = some (Join ["0x" ++ (Repeat "0" (draw 30 src 0 + 1) ++ FormatUint a.val 16),
          "0x" ++ (Repeat "0" (draw 30 src 1 + 1) ++ FormatUint b.val 16),
          "0x" ++ (Repeat "0" (draw 30 src 2 + 1) ++ FormatUint c.val 16),
          "0x" ++ (Repeat "0" (draw 30 src 3 + 1) ++ FormatUint d.val 16)] ".",
        advance src 4) := by
  have hr : List.range 4 = [0, 1, 2, 3] := by decide
  simp only [ToHexWithPadding, model, List.length_map, List.length_cons, List.length_nil,
    Nat.zero_add, Nat.reduceAdd, hr, hexPadLoop, List.getElem?_cons_zero,
    List.getElem?_cons_succ, List.map_cons, List.map_nil, FormatInt_natCast, Split_hex_octet,
    Intn_fst, Intn_snd, advance_advance, draw_advance, Join]
  simp only [empty_append, String.append_assoc, ite_true, ite_false, gt_iff_lt,
    Nat.lt_irrefl, Nat.zero_lt_succ, Nat.zero_lt_one, Nat.ofNat_pos, if_true, if_false]

/-- The output of `ToOctalWithPadding` on a built value, draw by draw. -/
theorem ToOctalWithPadding_explicit (a b c d : Byte) (src : Source) :
    ToOctalWithPadding (model a b c d) src
      = some (Join [Repeat "0" (draw 30 src 0 + 1) ++ FormatUint a.val 8,
          Repeat "0" (draw 30 src 1 + 1) ++ FormatUint b.val 8,
          Repeat "0" (draw 30 src 2 + 1) ++ FormatUint c.val 8,
          Repeat "0" (draw 30 src 3 + 1) ++ FormatUint d.val 8] ".",
        advance src 4) := by
  have hr : List.range 4 = [0, 1, 2, 3] := by decide
  simp only [ToOctalWithPadding, model, List.length_map, List.length_cons, List.length_nil,
    Nat.zero_add, Nat.reduceAdd, hr, octalPadLoop, List.getElem?_cons_zero,
    List.getElem?_cons_succ, List.map_cons, List.map_nil, FormatInt_natCast,
    Intn_fst, Intn_snd, advance_advance, draw_advance, Join]
  simp only [empty_append, String.append_assoc, ite_true, ite_false, gt_iff_lt,
    Nat.lt_irrefl, Nat.zero_lt_succ, Nat.zero_lt_one, Nat.ofNat_pos, if_true, if_false]

theorem dot_free_hex_token (k n : Nat) :
    '.' ∉ ("0x" ++ (Repeat "0" k ++ FormatUint n 16)).data :=
  dot_free_append _ _ (by decide)
    (dot_free_append _ _ (dot_free_Repeat_zero k) (dot_free_FormatUint n 16 (by decide) (by decide)))

theorem dot_free_octal_token (k n : Nat) : '.' ∉ (Repeat "0" k ++ FormatUint n 8).data :=
  dot_free_append _ _ (dot_free_Repeat_zero k) (dot_free_FormatUint n 8 (by decide) (by decide))

theorem parse_hex_token (k : Nat) (x : Byte) :
    (dropLeading "0x" ("0x" ++ (Repeat "0" k ++ FormatUint x.val 16))).bind
      (fun r => ParseUint r 16 8) = some x.val := by
  rw [dropLeading_append]
  exact ParseUint_padded 16 8 x.val k (by decide) (by decide) x.isLt

theorem parse_octal_token (k : Nat) (x : Byte) :
    ParseUint (Repeat "0" k ++ FormatUint x.val 8) 8 8 = some x.val :=
  ParseUint_padded 8 8 x.val k (by decide) (by decide) x.isLt

/-- The padding loop, exactly: started at counter `j` it writes `m` pad zeros
and makes `m + 1` draws, where `m` is the least number with
`draw m < j + m`; the counter never passes 30. -/
theorem padLoop_exact :
    ∀ fuel j out src, 31 ≤ fuel + j → j ≤ 30 →
      ∃ m, j + m ≤ 30 ∧ draw 30 src m < j + m ∧ (∀ i, i < m → ¬ draw 30 src i < j + i) ∧
        padLoop fuel j out src = some (out ++ Repeat "0" m, advance src (m + 1)) := by
  intro fuel
  induction fuel with
  | zero => intro j out src h1 h2; omega
  | succ fuel ih =>
    intro j out src h1 h2
    rw [padLoop, Intn_fst, Intn_snd]
    have hlt : draw 30 src 0 < 30 := draw_lt 30 (by decide) src 0
    by_cases hc : j < draw 30 src 0 + 1
    · rw [if_pos hc]
      obtain ⟨m, hm, hd, hmin, hres⟩ := ih (j + 1) (out ++ "0") (advance src 1)
        (by omega) (by omega)
      refine ⟨m + 1, by omega, ?_, ?_, ?_⟩
      · rw [draw_advance] at hd
        have e : 1 + m = m + 1 := by omega
        rw [e] at hd
        omega
      · intro i hi
        cases i with
        | zero => simp only [Nat.add_zero]; omega
        | succ i =>
          have := hmin i (by omega)
          rw [draw_advance] at this
          have e : 1 + i = i + 1 := by omega
          rw [e] at this
          omega
      · rw [hres, advance_advance, Repeat, String.append_assoc]
        have e : 1 + (m + 1) = m + 1 + 1 := by omega
        rw [e]
    · rw [if_neg hc]
      refine ⟨0, by omega, by simp only [Nat.add_zero]; omega, ?_, ?_⟩
      · intro i hi; omega
      · rw [Repeat, append_empty]

/-- The padding loop as `ToBaseWithPadding` starts it: between 1 and 30 pad
zeros, the least `k` with `draw k < k`, and `k + 1` draws. -/
theorem padLoop_from_zero (out : String) (src : Source) :
    ∃ k, 1 ≤ k ∧ k ≤ 30 ∧ draw 30 src k < k ∧ (∀ i, i < k → ¬ draw 30 src i < i) ∧
      padLoop 31 0 out src = some (out ++ Repeat "0" k, advance src (k + 1)) := by
  obtain ⟨m, hm, hd, hmin, hres⟩ := padLoop_exact 31 0 out src (by omega) (by omega)
  simp only [Nat.zero_add] at hm hd hmin
  exact ⟨m, by omega, hm, hd, hmin, hres⟩

theorem FormatUint_ten_eq_zero (x : Byte) : FormatUint x.val 10 = "0" ↔ x.val = 0 := by
  obtain ⟨_, _, _, _, hh, hz⟩ := octet_shape x
  constructor
  · intro h
    apply hh
    rw [h]
    rfl
  · exact hz

/-- One pass of the loop of `ToBaseWithPadding` for an octet `x` at index `i`:
the separator, then the token `t`, after `n` draws. For a non-zero octet the
token is its decimal string and no draw is made; for a zero octet the token
is `k` pad zeros and "0", with `k` as in `padLoop_from_zero`, after `k + 1`
draws. -/
theorem baseLoop_step (ipf : IPFuscator) (x : Byte) (rest : List String) (i : Nat)
    (out : String) (src : Source) (hi : ipf.ips[i]? = some (FormatUint x.val 10)) :
    ∃ t n,
      ((x.val ≠ 0 ∧ t = FormatUint x.val 10 ∧ n = 0) ∨
        (x.val = 0 ∧ ∃ k, 1 ≤ k ∧ k ≤ 30 ∧ draw 30 src k < k ∧
          (∀ j, j < k → ¬ draw 30 src j < j) ∧ t = Repeat "0" k ++ "0" ∧ n = k + 1)) ∧
      baseLoop ipf (FormatUint x.val 10 :: rest) i out src
        = baseLoop ipf rest (i + 1) ((if i > 0 then out ++ "." else out) ++ t)
            (advance src n) := by
  by_cases hx : x.val = 0
  · have h0 : FormatUint x.val 10 = "0" := (FormatUint_ten_eq_zero x).mpr hx
    obtain ⟨k, hk1, hk30, hd, hmin, hres⟩ :=
      padLoop_from_zero (if i > 0 then out ++ "." else out) src
    refine ⟨Repeat "0" k ++ "0", k + 1, Or.inr ⟨hx, k, hk1, hk30, hd, hmin, rfl, rfl⟩, ?_⟩
    rw [baseLoop, hi, h0, if_pos rfl, hres]
    simp only [String.append_assoc]
  · have h0 : ¬ (some (FormatUint x.val 10) = some "0") := by
      intro h
      exact hx ((FormatUint_ten_eq_zero x).mp (Option.some.inj h))
    refine ⟨FormatUint x.val 10, 0, Or.inl ⟨hx, rfl, rfl⟩, ?_⟩
    rw [baseLoop, hi, if_neg h0]
    rfl

/-- The output of `ToBaseWithPadding` on a built value: four tokens joined by
'.', each written as `padToken` says, on the source left by the one before. -/
theorem ToBaseWithPadding_explicit (a b c d : Byte) (src : Source) :
    ∃ t0 n0 t1 n1 t2 n2 t3 n3,
      padToken a src t0 n0 ∧ padToken b (advance src n0) t1 n1 ∧
      padToken c (advance src (n0 + n1)) t2 n2 ∧
      padToken d (advance src (n0 + n1 + n2)) t3 n3 ∧
      ToBaseWithPadding (model a b c d) src
        = some (Join [t0, t1, t2, t3] ".", advance src (n0 + n1 + n2 + n3)) := by
  have hips : (model a b c d).ips = [FormatUint a.val 10, FormatUint b.val 10,
      FormatUint c.val 10, FormatUint d.val 10] := by
    simp only [model, List.map_cons, List.map_nil, Itoa_natCast]
  obtain ⟨t0, n0, p0, e0⟩ := baseLoop_step (model a b c d) a
    [FormatUint b.val 10, FormatUint c.val 10, FormatUint d.val 10] 0 "" src
    (by rw [hips]; rfl)
  obtain ⟨t1, n1, p1, e1⟩ := baseLoop_step (model a b c d) b
    [FormatUint c.val 10, FormatUint d.val 10] 1 ((if 0 > 0 then "" ++ "." else "") ++ t0)
    (advance src n0) (by rw [hips]; rfl)
  obtain ⟨t2, n2, p2, e2⟩ := baseLoop_step (model a b c d) c
    [FormatUint d.val 10] 2
    ((if 1 > 0 then ((if 0 > 0 then "" ++ "." else "") ++ t0) ++ "." else
      ((if 0 > 0 then "" ++ "." else "") ++ t0)) ++ t1)
    (advance (advance src n0) n1) (by rw [hips]; rfl)
  obtain ⟨t3, n3, p3, e3⟩ := baseLoop_step (model a b c d) d [] 3
    ((if 2 > 0 then ((if 1 > 0 then ((if 0 > 0 then "" ++ "." else "") ++ t0) ++ "." else
      ((if 0 > 0 then "" ++ "." else "") ++ t0)) ++ t1) ++ "." else
      ((if 1 > 0 then ((if 0 > 0 then "" ++ "." else "") ++ t0) ++ "." else
      ((if 0 > 0 then "" ++ "." else "") ++ t0)) ++ t1)) ++ t2)
    (advance (advance (advance src n0) n1) n2) (by rw [hips]; rfl)
  have E := e0.trans (e1.trans (e2.trans e3))
  simp only [advance_advance, ← Nat.add_assoc] at p2 p3 E
  refine ⟨t0, n0, t1, n1, t2, n2, t3, n3, p0, p1, p2, p3, ?_⟩
  rw [ToBaseWithPadding, hips, E, baseLoop]
  simp only [Join, gt_iff_lt, Nat.lt_irrefl, if_false, Nat.zero_lt_one, Nat.zero_lt_succ,
    if_true, empty_append, String.append_assoc, Nat.ofNat_pos]

theorem Repeat_zero_chars (k : Nat) : ∀ c ∈ (Repeat "0" k).data, c = '0' := by
  induction k with
  | zero => intro c hc; simp [Repeat] at hc
  | succ k ih =>
    intro c hc
    rw [Repeat, String.data_append, List.mem_append] at hc
    rcases hc with h | h
    · simpa using h
    · exact ih c h

/-- What a token of `ToBaseWithPadding` looks like to a reader. -/
theorem padToken_facts (x : Byte) (src : Source) (t : String) (n : Nat)
    (h : padToken x src t n) :
    '.' ∉ t.data ∧ (∀ c ∈ t.data, '0' ≤ c ∧ c ≤ '9') ∧ ParseUint t 10 8 = some x.val ∧
      (x.val ≠ 0 → t = FormatUint x.val 10) := by
  rcases h with ⟨hx, ht, _⟩ | ⟨hx, k, _, _, _, _, ht, _⟩
  · subst ht
    obtain ⟨_, _, _, hdig, _, _⟩ := octet_shape x
    exact ⟨dot_free_FormatUint _ 10 (by decide) (by decide), hdig,
      ParseUint_FormatUint 10 8 x.val (by decide) (by decide) x.isLt, fun _ => rfl⟩
  · subst ht
    have hz : ("0" : String) = FormatUint 0 10 := by decide
    refine ⟨dot_free_append _ _ (dot_free_Repeat_zero k) (by decide), ?_, ?_,
      fun hne => absurd hx hne⟩
    · intro c hc
      rw [String.data_append, List.mem_append] at hc
      rcases hc with h | h
      · rw [Repeat_zero_chars k c h]; decide
      · have : c = '0' := by simpa using h
        rw [this]; decide
    · rw [hx, hz]
      exact ParseUint_padded 10 8 0 k (by decide) (by decide) (by decide)

theorem padToken_draws (x : Byte) (src : Source) (t : String) (n : Nat)
    (h : padToken x src t n) :
    (x.val ≠ 0 → n = 0) ∧ (x.val = 0 → 2 ≤ n ∧ n ≤ 31) ∧ n ≤ 31 := by
  rcases h with ⟨hx, _, hn⟩ | ⟨hx, k, h1, h30, _, _, _, hn⟩
  · exact ⟨fun _ => hn, fun h0 => absurd h0 hx, by omega⟩
  · exact ⟨fun hne => absurd hx hne, fun _ => by omega, by omega⟩

/-- One pass of the loop of `genRandBase`: one draw, the separator, and the
token that `randBaseToken` gives for the draw. -/
theorem randBaseLoop_step (ipf : IPFuscator) (i : Nat) (rest : List Nat) (out : String)
    (src : Source) (t : String) (ht : randBaseToken ipf i (draw 3 src 0) = some t) :
    randBaseLoop ipf (i :: rest) out src
      = randBaseLoop ipf rest ((if i > 0 then out ++ "." else out) ++ t) (advance src 1) := by
  rw [randBaseLoop, Intn_fst, Intn_snd]
  unfold randBaseToken at ht
  by_cases h0 : draw 3 src 0 = 0
  · rw [if_pos h0] at ht
    rw [if_pos h0, ht]
  · rw [if_neg h0] at ht
    rw [if_neg h0]
    by_cases h1 : draw 3 src 0 = 1
    · rw [if_pos h1] at ht
      rw [if_pos h1, ht]
    · rw [if_neg h1] at ht
      rw [if_neg h1]
      by_cases h2 : draw 3 src 0 = 2
      · rw [if_pos h2] at ht
        rw [if_pos h2]
        cases ho : ipf.octal[i]? with
        | none => rw [ho] at ht; simp at ht
        | some o =>
          rw [ho] at ht
          simp only [Option.map_some', Option.some.injEq] at ht
          subst ht
          by_cases hi : i = 0
          · simp only [hi, if_true, String.append_assoc]
          · simp only [hi, if_false]
      · rw [if_neg h2] at ht
        rw [if_neg h2]
        simp only [Option.some.injEq] at ht
        subst ht
        rw [append_empty]

theorem ParseUint_zero_octal (x : Byte) : ParseUint ("0" ++ FormatUint x.val 8) 8 8 = some x.val := by
  have e : ("0" : String) = Repeat "0" 1 := by decide
  rw [e]
  exact ParseUint_padded 8 8 x.val 1 (by decide) (by decide) x.isLt

/-- The token of `genRandBase` at an index whose three strings render `x`. -/
theorem randToken_of_lookup (ipf : IPFuscator) (i : Nat) (x : Byte) (s : Nat) (hs : s < 3)
    (h10 : ipf.ips[i]? = some (FormatUint x.val 10))
    (h16 : ipf.hex[i]? = some ("0x" ++ FormatUint x.val 16))
    (h8 : ipf.octal[i]? = some (FormatUint x.val 8)) :
    ∃ t, randBaseToken ipf i s = some t ∧ randToken ipf i x s t ∧ '.' ∉ t.data := by
  have hs3 : s = 0 ∨ s = 1 ∨ s = 2 := by omega
  rcases hs3 with rfl | rfl | rfl
  · refine ⟨FormatUint x.val 10, by simp [randBaseToken, h10], ⟨?_, ?_, ?_⟩,
      dot_free_FormatUint _ 10 (by decide) (by decide)⟩
    · intro _
      exact ⟨h10, ParseUint_FormatUint 10 8 x.val (by decide) (by decide) x.isLt⟩
    · intro h; omega
    · intro h; omega
  · refine ⟨"0x" ++ FormatUint x.val 16, by simp [randBaseToken, h16], ⟨?_, ?_, ?_⟩,
      dot_free_append _ _ (by decide) (dot_free_FormatUint _ 16 (by decide) (by decide))⟩
    · intro h; omega
    · intro _
      refine ⟨h16, ?_⟩
      rw [dropLeading_append]
      exact ParseUint_FormatUint 16 8 x.val (by decide) (by decide) x.isLt
    · intro h; omega
  · by_cases hi : i = 0
    · subst hi
      refine ⟨"0" ++ FormatUint x.val 8, by simp [randBaseToken, h8], ⟨?_, ?_, ?_⟩,
        dot_free_append _ _ (by decide) (dot_free_FormatUint _ 8 (by decide) (by decide))⟩
      · intro h; omega
      · intro h; omega
      · intro _
        exact ⟨FormatUint x.val 8, h8, by rw [if_pos rfl], ParseUint_zero_octal x⟩
    · refine ⟨FormatUint x.val 8, by simp [randBaseToken, h8, hi], ⟨?_, ?_, ?_⟩,
        dot_free_FormatUint _ 8 (by decide) (by decide)⟩
      · intro h; omega
      · intro h; omega
      · intro _
        exact ⟨FormatUint x.val 8, h8, by rw [if_neg hi],
          ParseUint_FormatUint 8 8 x.val (by decide) (by decide) x.isLt⟩

/-- The output of `ToRandBase` on a built value: four tokens joined by '.',
token `i` chosen by the `i`-th next draw, after exactly four draws. -/
theorem ToRandBase_explicit (a b c d : Byte) (src : Source) :
    ∃ t0 t1 t2 t3,
      (randToken (model a b c d) 0 a (draw 3 src 0) t0 ∧ '.' ∉ t0.data) ∧
      (randToken (model a b c d) 1 b (draw 3 src 1) t1 ∧ '.' ∉ t1.data) ∧
      (randToken (model a b c d) 2 c (draw 3 src 2) t2 ∧ '.' ∉ t2.data) ∧
      (randToken (model a b c d) 3 d (draw 3 src 3) t3 ∧ '.' ∉ t3.data) ∧
      ToRandBase (model a b c d) src = some (Join [t0, t1, t2, t3] ".", advance src 4) := by
  have hips : (model a b c d).ips = [FormatUint a.val 10, FormatUint b.val 10,
      FormatUint c.val 10, FormatUint d.val 10] := by
    simp only [model, List.map_cons, List.map_nil, Itoa_natCast]
  have hhex : (model a b c d).hex = ["0x" ++ FormatUint a.val 16, "0x" ++ FormatUint b.val 16,
      "0x" ++ FormatUint c.val 16, "0x" ++ FormatUint d.val 16] := by
    simp only [model, List.map_cons, List.map_nil, FormatInt_natCast]
  have hoct : (model a b c d).octal = [FormatUint a.val 8, FormatUint b.val 8,
      FormatUint c.val 8, FormatUint d.val 8] := by
    simp only [model, List.map_cons, List.map_nil, FormatInt_natCast]
  have hd := fun i => draw_lt 3 (by decide) src i
  obtain ⟨t0, k0, r0, f0⟩ := randToken_of_lookup (model a b c d) 0 a (draw 3 src 0) (hd 0)
    (by rw [hips]; rfl) (by rw [hhex]; rfl) (by rw [hoct]; rfl)
  obtain ⟨t1, k1, r1, f1⟩ := randToken_of_lookup (model a b c d) 1 b (draw 3 src 1) (hd 1)
    (by rw [hips]; rfl) (by rw [hhex]; rfl) (by rw [hoct]; rfl)
  obtain ⟨t2, k2, r2, f2⟩ := randToken_of_lookup (model a b c d) 2 c (draw 3 src 2) (hd 2)
    (by rw [hips]; rfl) (by rw [hhex]; rfl) (by rw [hoct]; rfl)
  obtain ⟨t3, k3, r3, f3⟩ := randToken_of_lookup (model a b c d) 3 d (draw 3 src 3) (hd 3)
    (by rw [hips]; rfl) (by rw [hhex]; rfl) (by rw [hoct]; rfl)
  refine ⟨t0, t1, t2, t3, ⟨r0, f0⟩, ⟨r1, f1⟩, ⟨r2, f2⟩, ⟨r3, f3⟩, ?_⟩
  have hr : List.range (model a b c d).ips.length = [0, 1, 2, 3] := by
    rw [hips]
    have h4 : List.range 4 = [0, 1, 2, 3] := by decide
    exact h4
  have e0 := randBaseLoop_step (model a b c d) 0 [1, 2, 3] "" src t0 k0
  have e1 := randBaseLoop_step (model a b c d) 1 [2, 3]
    ((if 0 > 0 then "" ++ "." else "") ++ t0) (advance src 1) t1
    (by rw [draw_advance]; exact k1)
  have e2 := randBaseLoop_step (model a b c d) 2 [3]
    ((if 1 > 0 then ((if 0 > 0 then "" ++ "." else "") ++ t0) ++ "." else
      ((if 0 > 0 then "" ++ "." else "") ++ t0)) ++ t1)
    (advance (advance src 1) 1) t2
    (by rw [draw_advance, draw_advance]; exact k2)
  have e3 := randBaseLoop_step (model a b c d) 3 []
    ((if 2 > 0 then ((if 1 > 0 then ((if 0 > 0 then "" ++ "." else "") ++ t0) ++ "." else
      ((if 0 > 0 then "" ++ "." else "") ++ t0)) ++ t1) ++ "." else
      ((if 1 > 0 then ((if 0 > 0 then "" ++ "." else "") ++ t0) ++ "." else
      ((if 0 > 0 then "" ++ "." else "") ++ t0)) ++ t1)) ++ t2)
    (advance (advance (advance src 1) 1) 1) t3
    (by rw [draw_advance, draw_advance, draw_advance]; exact k3)
  have E := e0.trans (e1.trans (e2.trans e3))
  rw [ToRandBase, genRandBase, hr, E, randBaseLoop]
  simp only [Join, gt_iff_lt, Nat.lt_irrefl, if_false, Nat.zero_lt_one, Nat.zero_lt_succ,
    if_true, empty_append, String.append_assoc, Nat.ofNat_pos, advance_advance]

theorem circled_table (m : Nat) (hm : m < 10) :
    ('0' ≤ Nat.digitChar m ∧ Nat.digitChar m ≤ '9') ∧
    (Nat.digitChar m).toNat - ('0' : Char).toNat = m ∧
    circledDigitsCharset[(Nat.digitChar m).toNat - ('0' : Char).toNat]?
      = some (circledOf (Nat.digitChar m)) ∧
    circledOf (Nat.digitChar m) = Char.ofNat (if m = 0 then 0x24EA else 0x2460 + (m - 1)) := by
  interval_cases m <;> refine ⟨by decide, by decide, by decide, by decide⟩

/-- The loop of `ToCircledDigits` on dotted decimal text: every character is
replaced by its circled form and appended to the builder. -/
theorem circledLoop_map (l : List Char)
    (hl : ∀ c ∈ l, c = '.' ∨ ∃ m, m < 10 ∧ c = Nat.digitChar m) :
    ∀ out, circledLoop l out = some (String.mk (out.data ++ l.map circledOf)) := by
  induction l with
  | nil =>
    intro out
    have e : circledLoop [] out = some out := rfl
    rw [e, List.map_nil, List.append_nil]
  | cons c l ih =>
    intro out
    have hl2 : ∀ x ∈ l, x = '.' ∨ ∃ m, m < 10 ∧ x = Nat.digitChar m :=
      fun x hx => hl x (List.mem_cons_of_mem _ hx)
    rcases hl c (List.mem_cons_self _ _) with hc | ⟨m, hm, hc⟩
    · subst hc
      have hnd : ¬ ('0' ≤ '.' ∧ '.' ≤ '9') := by decide
      have hdot : circledOf '.' = '.' := by decide
      rw [circledLoop_cons, if_neg hnd, ih hl2]
      simp [String.push, hdot]
    · subst hc
      obtain ⟨hd, _, hr, _⟩ := circled_table m hm
      rw [circledLoop_cons, if_pos hd, hr]
      simp only
      rw [ih hl2]
      simp [String.push]

/-! ## `ToNoZeros`, token by token -/

theorem Split_Join (toks : List String) :
    ∀ first : String, '.' ∉ first.data → (∀ t ∈ toks, '.' ∉ t.data) →
      Split (Join (first :: toks) ".") "." = first :: toks := by
  induction toks with
  | nil =>
    intro first hf _
    rw [Join]
    exact Split_token first hf
  | cons t ts ih =>
    intro first hf ht
    rw [Join, Split_token_dot first _ hf,
      ih t (ht t (List.mem_cons_self _ _)) (fun u hu => ht u (List.mem_cons_of_mem _ hu))]

theorem adjacentDots_dot_free (t l : List Char) (h : '.' ∉ t) :
    adjacentDots (t ++ l) = adjacentDots l := by
  induction t with
  | nil => rfl
  | cons c t ih =>
    have hc : c ≠ '.' := fun e => h (by simp [e])
    have ht : '.' ∉ t := fun e => h (by simp [e])
    rw [List.cons_append, adjacentDots, ih ht]
    simp [hc]

theorem Join_data_head (t : String) (ts : List String) (hne : t.data ≠ []) :
    (Join (t :: ts) ".").data.head? = t.data.head? := by
  cases ts with
  | nil => rw [Join]
  | cons u us =>
    rw [Join, String.data_append, String.data_append, List.append_assoc,
      List.head?_append_of_ne_nil _ hne]

theorem adjacentDots_Join (toks : List String) :
    ∀ first : String, '.' ∉ first.data →
      (∀ t ∈ toks, '.' ∉ t.data ∧ t.data ≠ []) →
      adjacentDots (Join (first :: toks) ".").data = false := by
  induction toks with
  | nil =>
    intro first hf _
    rw [Join]
    have := adjacentDots_dot_free first.data [] hf
    rw [List.append_nil] at this
    rw [this]
    rfl
  | cons t ts ih =>
    intro first hf ht
    obtain ⟨htd, htn⟩ := ht t (List.mem_cons_self _ _)
    have hrest := ih t htd (fun u hu => ht u (List.mem_cons_of_mem _ hu))
    have hhead : (Join (t :: ts) ".").data.head? ≠ some '.' := by
      rw [Join_data_head t ts htn]
      intro e
      exact htd (List.mem_of_mem_head? e)
    have e : (Join (first :: t :: ts) ".").data
        = first.data ++ '.' :: (Join (t :: ts) ".").data := by
      rw [Join, String.data_append, String.data_append, List.append_assoc]
      rfl
    rw [e, adjacentDots_dot_free _ _ hf, adjacentDots, hrest]
    simp [hhead]

theorem reinsertZeros_filter (xs : List Byte) :
    reinsertZeros xs ((xs.filter (fun x => x.val ≠ 0)).map (fun x => FormatUint x.val 10))
      = xs.map (fun x => FormatUint x.val 10) := by
  induction xs with
  | nil => rfl
  | cons x xs ih =>
    by_cases hx : x.val = 0
    · have h0 : FormatUint x.val 10 = "0" := (FormatUint_ten_eq_zero x).mpr hx
      simp only [reinsertZeros, hx, if_true, List.map_cons, List.filter_cons, ne_eq,
        not_true_eq_false, decide_False, Bool.false_eq_true, if_false]
      rw [ih, ← hx, h0]
    · simp only [reinsertZeros, hx, if_false, List.map_cons, List.filter_cons, ne_eq,
        not_false_eq_true, decide_True, if_true]
      rw [ih]

/-- The output of `ToNoZeros` as a joined list: the first token is the decimal
string of the first octet, or empty when that octet is 0; the others are the
decimal strings of the later non-zero octets. -/
theorem ToNoZeros_joined (a b c d : Byte) :
    ToNoZeros (model a b c d)
      = some (Join ((if a.val = 0 then "" else FormatUint a.val 10) ::
          ([b, c, d].filter (fun x => x.val ≠ 0)).map (fun x => FormatUint x.val 10)) ".") := by
  rw [ToNoZeros_model]
  by_cases ha : a.val = 0 <;> by_cases hb : b.val = 0 <;> by_cases hc : c.val = 0 <;>
    by_cases hd : d.val = 0 <;>
    simp only [ha, hb, hc, hd, if_true, if_false, List.filter_cons, List.filter_nil, ne_eq,
      not_true_eq_false, not_false_eq_true, decide_True, decide_False, Bool.false_eq_true,
      List.map_cons, List.map_nil, Join, empty_append, append_empty, String.append_assoc]

/-! ## Claims -/

/-- C1: the claim says that `ToRand8Bits` keeps the first three octets of the
address and replaces the fourth by the draw. The code masks with
`net.CIDRMask(8, 32)`, which keeps the first octet only: for 192.168.0.1 and
the draw 7 it returns "192.0.0.7", not "192.168.0.7". -/
theorem C1_ToRand8Bits_keeps_first_octet_only :
    ∃ ipf, New (addr4 192 168 0 1) = Built.ok ipf ∧
      (Intn 255 allSeven).1 = 7 ∧
      CIDRMask 8 32 = some [255, 0, 0, 0] ∧
      (ToRand8Bits ipf allSeven).map (fun r => r.1) = some "192.0.0.7" ∧
      (ToRand8Bits ipf allSeven).map (fun r => r.1) ≠ some "192.168.0.7" :=
  ⟨_, rfl, by decide, by decide, by decide, by decide⟩

/-- C2, as stated, fails: the claim says that every generator returns a
non-empty string, and names `ToNoZeros` on every address. For 0.0.0.0 every
octet is skipped and `ToNoZeros` returns the empty string. -/
theorem C2_ToNoZeros_empty_on_zero_address :
    ∃ ipf, New (addr4 0 0 0 0) = Built.ok ipf ∧ ToNoZeros ipf = some "" :=
  ⟨_, rfl, by decide⟩

/-- C2 (amended): for every value returned by `New` and every state of the
random source, each of the twelve generators returns a string without a
white-space character; the string is non-empty for every generator other than
`ToNoZeros`, and the string of `ToNoZeros` is empty exactly when the address
is 0.0.0.0. -/
theorem C2_outputs_without_space (ip : Option NetIP) (ipf : IPFuscator)
    (h : New ip = Built.ok ipf) (src : Source) :
    (∃ r, ToBaseWithPadding ipf src = some r ∧ r.1 ≠ "" ∧ noSpace r.1) ∧
    (∃ s, ToCircledDigits ipf = some s ∧ s ≠ "" ∧ noSpace s) ∧
    (∃ s, ToDecimal ipf = some s ∧ s ≠ "" ∧ noSpace s) ∧
    (ToHex ipf ≠ "" ∧ noSpace (ToHex ipf)) ∧
    (∃ r, ToHexWithPadding ipf src = some r ∧ r.1 ≠ "" ∧ noSpace r.1) ∧
    (∃ s, ToIPv6CompatibleV4 ipf = some s ∧ s ≠ "" ∧ noSpace s) ∧
    (∃ s, ToNoZeros ipf = some s ∧ noSpace s ∧ (s = "" ↔ ipf.IP = [0, 0, 0, 0])) ∧
    (ToOctal ipf ≠ "" ∧ noSpace (ToOctal ipf)) ∧
    (∃ r, ToOctalWithPadding ipf src = some r ∧ r.1 ≠ "" ∧ noSpace r.1) ∧
    (∃ r, ToRand8Bits ipf src = some r ∧ r.1 ≠ "" ∧ noSpace r.1) ∧
    (∃ r, ToRandBase ipf src = some r ∧ r.1 ≠ "" ∧ noSpace r.1) ∧
    (∃ r, ToRandBaseWithPadding ipf src = some r ∧ r.1 ≠ "" ∧ noSpace r.1) := by
  obtain ⟨a, b, c, d, rfl⟩ := New_ok_shape ip ipf h
  have hf := fun (n base : Nat) (h2 : 2 ≤ base) (h16 : base ≤ 16) =>
    noSpace_FormatUint n base h2 h16
  have hl := fun (n base : Nat) (h2 : 2 ≤ base) => length_FormatUint_pos n base h2
  have hx : "0x".length = 2 := rfl
  have h0 : "0".length = 1 := rfl
  have hx' : noSpace "0x" := by decide
  have hd' : noSpace "." := by decide
  have h0' : noSpace "0" := by decide
  have he' : noSpace "" := by decide
  have hb1 : noSpace "[::ffff:" := by decide
  have hb2 : noSpace "]" := by decide
  have hR := noSpace_Repeat_zero
  have l8 := hl a.val 8 (by decide)
  have l10 := hl a.val 10 (by decide)
  have l16 := hl a.val 16 (by decide)
  have f8 := fun n => hf n 8 (by decide) (by decide)
  have f10 := fun n => hf n 10 (by decide) (by decide)
  have f16 := fun n => hf n 16 (by decide) (by decide)
  refine ⟨?_, ?_, ?_, ?_, ?_, ?_, ?_, ?_, ?_, ?_, ?_, ?_⟩
  · obtain ⟨r, hr, hn, he⟩ := ToBaseWithPadding_model a b c d src
    exact ⟨r, hr, he, hn⟩
  · obtain ⟨s, hs, hn, he⟩ := ToCircledDigits_model a b c d
    exact ⟨s, hs, he, hn⟩
  · refine ⟨_, ToDecimal_model a b c d, ne_empty_of_length_pos _ (hl _ 10 (by decide)), f10 _⟩
  · rw [ToHex_model]
    simp only [Join, noSpace_append]
    refine ⟨ne_empty_of_length_pos _ ?_, ?_⟩
    · simp only [String.length_append]; omega
    · simp [hx', hd', f16]
  · obtain ⟨k0, k1, k2, k3, src1, hr⟩ := ToHexWithPadding_model a b c d src
    refine ⟨_, hr, ne_empty_of_length_pos _ ?_, ?_⟩
    · simp only [String.length_append]; omega
    · simp only [noSpace_append]
      simp [hx', hd', he', f16, hR]
  · refine ⟨_, ToIPv6CompatibleV4_model a b c d, ne_empty_of_length_pos _ ?_, ?_⟩
    · simp only [String.length_append]; omega
    · simp only [noSpace_append]
      simp [hb1, hb2, hd', f10]
  · exact ToNoZeros_empty_iff a b c d
  · rw [ToOctal_model]
    simp only [Join, noSpace_append]
    refine ⟨ne_empty_of_length_pos _ ?_, ?_⟩
    · simp only [String.length_append]; omega
    · simp [h0', hd', f8]
  · obtain ⟨k0, k1, k2, k3, src1, hr⟩ := ToOctalWithPadding_model a b c d src
    refine ⟨_, hr, ne_empty_of_length_pos _ ?_, ?_⟩
    · simp only [String.length_append]; omega
    · simp only [noSpace_append]
      simp [hd', he', f8, hR]
  · refine ⟨_, ToRand8Bits_model a b c d src, ne_empty_of_length_pos _ ?_, ?_⟩
    · simp only [String.length_append]; omega
    · simp only [noSpace_append]
      simp [h0', hd', f10]
  · obtain ⟨r, hr, hn, he⟩ := ToRandBase_model a b c d src
    exact ⟨r, hr, he, hn⟩
  · obtain ⟨r, hr, hn, he⟩ := ToRandBaseWithPadding_model a b c d src
    exact ⟨r, hr, he, hn⟩

theorem C2_outputs_without_space_witness :
    New (addr4 192 168 0 1) = Built.ok (model 192 168 0 1) ∧
    (∃ r, ToBaseWithPadding (model 192 168 0 1) allSeven = some r ∧ r.1 ≠ "" ∧ noSpace r.1) ∧
    (∃ s, ToCircledDigits (model 192 168 0 1) = some s ∧ s ≠ "" ∧ noSpace s) ∧
    (∃ s, ToDecimal (model 192 168 0 1) = some s ∧ s ≠ "" ∧ noSpace s) ∧
    (ToHex (model 192 168 0 1) ≠ "" ∧ noSpace (ToHex (model 192 168 0 1))) ∧
    (∃ r, ToHexWithPadding (model 192 168 0 1) allSeven = some r ∧ r.1 ≠ "" ∧ noSpace r.1) ∧
    (∃ s, ToIPv6CompatibleV4 (model 192 168 0 1) = some s ∧ s ≠ "" ∧ noSpace s) ∧
    (∃ s, ToNoZeros (model 192 168 0 1) = some s ∧ noSpace s ∧ (s = "" ↔ (model 192 168 0 1).IP = [0, 0, 0, 0])) ∧
    (ToOctal (model 192 168 0 1) ≠ "" ∧ noSpace (ToOctal (model 192 168 0 1))) ∧
    (∃ r, ToOctalWithPadding (model 192 168 0 1) allSeven = some r ∧ r.1 ≠ "" ∧ noSpace r.1) ∧
    (∃ r, ToRand8Bits (model 192 168 0 1) allSeven = some r ∧ r.1 ≠ "" ∧ noSpace r.1) ∧
    (∃ r, ToRandBase (model 192 168 0 1) allSeven = some r ∧ r.1 ≠ "" ∧ noSpace r.1) ∧
    (∃ r, ToRandBaseWithPadding (model 192 168 0 1) allSeven = some r ∧ r.1 ≠ "" ∧ noSpace r.1) :=
  ⟨New_addr4 192 168 0 1,
    C2_outputs_without_space (addr4 192 168 0 1) (model 192 168 0 1) (New_addr4 192 168 0 1)
      allSeven⟩

/-- C3: the claim says that `ToNoZeros` returns the decimal renderings of the
non-zero octets joined by '.', never starting with '.'. For 0.1.2.3 the
non-zero octets joined by '.' are "1.2.3", and the code returns ".1.2.3": the
separator is written for every non-zero octet at an index above 0. -/
theorem C3_ToNoZeros_leading_separator :
    ∃ ipf, New (addr4 0 1 2 3) = Built.ok ipf ∧
      Join ((ipf.IP.filter (fun b => b.val ≠ 0)).map (fun b => FormatUint b.val 10)) "."
        = "1.2.3" ∧
      ToNoZeros ipf = some ".1.2.3" :=
  ⟨_, rfl, by decide, by decide⟩

/-- C4: the claim says that a zero octet is preceded by k+1 pad zeros, where k
is the single draw made for that octet. The loop condition draws again at
every evaluation: for 0.1.1.1 with the draws 5, 0 the first draw is 5, the
claim gives six pad zeros ("0000000.1.1.1"), and the code writes one pad zero
("00.1.1.1") and consumes two draws. -/
theorem C4_ToBaseWithPadding_redraws :
    ∃ ipf, New (addr4 0 1 1 1) = Built.ok ipf ∧
      (Intn 30 fiveThenZero).1 = 5 ∧
      Repeat "0" ((Intn 30 fiveThenZero).1 + 1) ++ "0" ++ ".1.1.1" = "0000000.1.1.1" ∧
      (ToBaseWithPadding ipf fiveThenZero).map (fun r => (r.1, r.2.pos))
        = some ("00.1.1.1", 2) :=
  ⟨_, rfl, by decide, by decide, by decide⟩

/-- C5: `New` fails exactly on a nil address and on an address that is neither
4 bytes long nor 16 bytes long with the IPv4-in-IPv6 lead; on a 4-byte
address and on a 16-byte mapped address it succeeds, `IP` is the four IPv4
octets and `hex`, `ips`, `octal` have length 4. 192.168.0.1 (as `net.ParseIP`
returns it) succeeds and 2001:db8::1 fails. -/
theorem C5_New_error_iff (ip : Option NetIP) (a b c d : Byte) :
    ((∃ e, New ip = Built.error e) ↔
      (ip = none ∨ ∃ p, ip = some p ∧
        ¬ (p.length = 4 ∨ (p.length = 16 ∧ p.take 12 = v4InV6Lead)))) ∧
    (∃ ipf, New (addr4 a b c d) = Built.ok ipf ∧ ipf.IP = [a, b, c, d] ∧
      ipf.hex.length = 4 ∧ ipf.ips.length = 4 ∧ ipf.octal.length = 4) ∧
    (∃ ipf, New (addr16 a b c d) = Built.ok ipf ∧ ipf.IP = [a, b, c, d] ∧
      ipf.hex.length = 4 ∧ ipf.ips.length = 4 ∧ ipf.octal.length = 4) ∧
    (∃ ipf, New (addr16 192 168 0 1) = Built.ok ipf) ∧
    New (some [0x20, 0x01, 0x0d, 0xb8, 0, 0, 0, 0, 0, 0, 0, 0, 0, 0, 0, 1])
      = Built.error NewError.cannotConvert := by
  refine ⟨?_, ?_, ?_, ⟨_, rfl⟩, by decide⟩
  · cases ip with
    | none => simp [New]
    | some p =>
      have hiff := To4_eq_none_iff p
      cases hv : To4 p with
      | none =>
        rw [hv] at hiff
        simp only [true_iff] at hiff
        simp only [New, hv]
        constructor
        · intro _
          exact Or.inr ⟨p, rfl, hiff⟩
        · intro _
          exact ⟨_, rfl⟩
      | some v =>
        rw [hv] at hiff
        simp only [New, hv]
        constructor
        · rintro ⟨e, he⟩
          cases he
        · rintro (h | ⟨q, hq, hn⟩)
          · cases h
          · cases hq
            exact absurd (hiff.mpr hn) (by simp)
  · exact ⟨_, New_addr4 a b c d, rfl, rfl, rfl, rfl⟩
  · exact ⟨_, New_addr16 a b c d, rfl, rfl, rfl, rfl⟩

/-- C6: for every value returned by `New` and every index i in 0..3, parsing
`ips[i]` in base 10, `hex[i]` without its "0x" in base 16 and `octal[i]` in
base 8 each gives the octet `IP[i]`. -/
theorem C6_reparse (ip : Option NetIP) (ipf : IPFuscator) (h : New ip = Built.ok ipf)
    (i : Nat) (hi : i < 4) :
    ∃ x : Byte, ipf.IP[i]? = some x ∧
      (ipf.ips[i]?).bind (fun s => ParseUint s 10 8) = some x.val ∧
      (ipf.hex[i]?).bind (fun s => (dropLeading "0x" s).bind (fun t => ParseUint t 16 8))
        = some x.val ∧
      (ipf.octal[i]?).bind (fun s => ParseUint s 8 8) = some x.val := by
  obtain ⟨a, b, c, d, rfl⟩ := New_ok_shape ip ipf h
  have hp : ∀ (x : Byte) (base : Nat), 2 ≤ base → base ≤ 16 →
      ParseUint (FormatUint x.val base) base 8 = some x.val :=
    fun x base h2 h16 => ParseUint_FormatUint base 8 x.val h2 h16 x.isLt
  interval_cases i <;>
    simp [model, FormatInt_natCast, Itoa_natCast, dropLeading_append, hp]

theorem C6_reparse_witness :
    New (addr4 192 168 0 1) = Built.ok (model 192 168 0 1) ∧ 1 < 4 ∧
    ∃ x : Byte, (model 192 168 0 1).IP[1]? = some x ∧
      ((model 192 168 0 1).ips[1]?).bind (fun s => ParseUint s 10 8) = some x.val ∧
      ((model 192 168 0 1).hex[1]?).bind
        (fun s => (dropLeading "0x" s).bind (fun t => ParseUint t 16 8)) = some x.val ∧
      ((model 192 168 0 1).octal[1]?).bind (fun s => ParseUint s 8 8) = some x.val :=
  ⟨New_addr4 192 168 0 1, by decide,
    C6_reparse (addr4 192 168 0 1) (model 192 168 0 1) (New_addr4 192 168 0 1) 1 (by decide)⟩

/-- C7: for every value returned by `New` and every index i in 0..3, `hex[i]`
is "0x" followed by one or two lower-case hexadecimal digits, `octal[i]` is
one to three octal digits and `ips[i]` is one to three decimal digits; none
has a leading '0' unless the octet is 0, and then the digits are exactly "0"
(so `hex[i]` is "0x0"). -/
theorem C7_octet_strings (ip : Option NetIP) (ipf : IPFuscator) (h : New ip = Built.ok ipf)
    (i : Nat) (hi : i < 4) :
    ∃ (x : Byte) (hd o s : String), ipf.IP[i]? = some x ∧
      ipf.hex[i]? = some ("0x" ++ hd) ∧ ipf.octal[i]? = some o ∧ ipf.ips[i]? = some s ∧
      ((1 ≤ hd.length ∧ hd.length ≤ 2) ∧
        (∀ c ∈ hd.data, ('0' ≤ c ∧ c ≤ '9') ∨ ('a' ≤ c ∧ c ≤ 'f')) ∧
        (hd.data.head? = some '0' → x.val = 0) ∧ (x.val = 0 → hd = "0")) ∧
      ((1 ≤ o.length ∧ o.length ≤ 3) ∧ (∀ c ∈ o.data, '0' ≤ c ∧ c ≤ '7') ∧
        (o.data.head? = some '0' → x.val = 0) ∧ (x.val = 0 → o = "0")) ∧
      ((1 ≤ s.length ∧ s.length ≤ 3) ∧ (∀ c ∈ s.data, '0' ≤ c ∧ c ≤ '9') ∧
        (s.data.head? = some '0' → x.val = 0) ∧ (x.val = 0 → s = "0")) := by
  obtain ⟨a, b, c, d, rfl⟩ := New_ok_shape ip ipf h
  have key : ∀ x : Byte, ∃ (hd o s : String),
      "0x" ++ FormatInt (x.val : Int) 16 = "0x" ++ hd ∧ FormatInt (x.val : Int) 8 = o ∧
      Itoa (x.val : Int) = s ∧
      ((1 ≤ hd.length ∧ hd.length ≤ 2) ∧
        (∀ c ∈ hd.data, ('0' ≤ c ∧ c ≤ '9') ∨ ('a' ≤ c ∧ c ≤ 'f')) ∧
        (hd.data.head? = some '0' → x.val = 0) ∧ (x.val = 0 → hd = "0")) ∧
      ((1 ≤ o.length ∧ o.length ≤ 3) ∧ (∀ c ∈ o.data, '0' ≤ c ∧ c ≤ '7') ∧
        (o.data.head? = some '0' → x.val = 0) ∧ (x.val = 0 → o = "0")) ∧
      ((1 ≤ s.length ∧ s.length ≤ 3) ∧ (∀ c ∈ s.data, '0' ≤ c ∧ c ≤ '9') ∧
        (s.data.head? = some '0' → x.val = 0) ∧ (x.val = 0 → s = "0")) := by
    intro x
    obtain ⟨h16, h8, h10⟩ := octet_shape x
    exact ⟨FormatUint x.val 16, FormatUint x.val 8, FormatUint x.val 10,
      by rw [FormatInt_natCast], FormatInt_natCast _ _, Itoa_natCast _, h16, h8, h10⟩
  have pick : ∀ x : Byte, ∀ j : Nat,
      (model a b c d).IP[j]? = some x →
      (model a b c d).hex[j]? = some ("0x" ++ FormatInt (x.val : Int) 16) →
      (model a b c d).octal[j]? = some (FormatInt (x.val : Int) 8) →
      (model a b c d).ips[j]? = some (Itoa (x.val : Int)) →
      ∃ (x : Byte) (hd o s : String), (model a b c d).IP[j]? = some x ∧
        (model a b c d).hex[j]? = some ("0x" ++ hd) ∧ (model a b c d).octal[j]? = some o ∧
        (model a b c d).ips[j]? = some s ∧
        ((1 ≤ hd.length ∧ hd.length ≤ 2) ∧
          (∀ c ∈ hd.data, ('0' ≤ c ∧ c ≤ '9') ∨ ('a' ≤ c ∧ c ≤ 'f')) ∧
          (hd.data.head? = some '0' → x.val = 0) ∧ (x.val = 0 → hd = "0")) ∧
        ((1 ≤ o.length ∧ o.length ≤ 3) ∧ (∀ c ∈ o.data, '0' ≤ c ∧ c ≤ '7') ∧
          (o.data.head? = some '0' → x.val = 0) ∧ (x.val = 0 → o = "0")) ∧
        ((1 ≤ s.length ∧ s.length ≤ 3) ∧ (∀ c ∈ s.data, '0' ≤ c ∧ c ≤ '9') ∧
          (s.data.head? = some '0' → x.val = 0) ∧ (x.val = 0 → s = "0")) := by
    intro x j e1 e2 e3 e4
    obtain ⟨hd, o, s, k1, k2, k3, rest⟩ := key x
    exact ⟨x, hd, o, s, e1, by rw [e2, k1], by rw [e3, k2], by rw [e4, k3], rest⟩
  interval_cases i
  · exact pick a 0 rfl rfl rfl rfl
  · exact pick b 1 rfl rfl rfl rfl
  · exact pick c 2 rfl rfl rfl rfl
  · exact pick d 3 rfl rfl rfl rfl

theorem C7_octet_strings_witness :
    New (addr4 192 168 0 1) = Built.ok (model 192 168 0 1) ∧ 0 < 4 ∧
    ((model 192 168 0 1).hex[0]? = some "0xc0" ∧ (model 192 168 0 1).octal[0]? = some "300" ∧
      (model 192 168 0 1).ips[0]? = some "192") ∧
    ∃ (x : Byte) (hd o s : String), (model 192 168 0 1).IP[0]? = some x ∧
      (model 192 168 0 1).hex[0]? = some ("0x" ++ hd) ∧
      (model 192 168 0 1).octal[0]? = some o ∧ (model 192 168 0 1).ips[0]? = some s ∧
      ((1 ≤ hd.length ∧ hd.length ≤ 2) ∧
        (∀ c ∈ hd.data, ('0' ≤ c ∧ c ≤ '9') ∨ ('a' ≤ c ∧ c ≤ 'f')) ∧
        (hd.data.head? = some '0' → x.val = 0) ∧ (x.val = 0 → hd = "0")) ∧
      ((1 ≤ o.length ∧ o.length ≤ 3) ∧ (∀ c ∈ o.data, '0' ≤ c ∧ c ≤ '7') ∧
        (o.data.head? = some '0' → x.val = 0) ∧ (x.val = 0 → o = "0")) ∧
      ((1 ≤ s.length ∧ s.length ≤ 3) ∧ (∀ c ∈ s.data, '0' ≤ c ∧ c ≤ '9') ∧
        (s.data.head? = some '0' → x.val = 0) ∧ (x.val = 0 → s = "0")) :=
  ⟨New_addr4 192 168 0 1, by decide, by decide,
    C7_octet_strings (addr4 192 168 0 1) (model 192 168 0 1) (New_addr4 192 168 0 1) 0
      (by decide)⟩

/-- C8: for every address a.b.c.d, `ToDecimal` returns the base-10 rendering of
a*2^24 + b*2^16 + c*2^8 + d, with no leading zero; parsing it back as an
unsigned 32-bit integer gives a value below 2^32 whose four big-endian bytes
are a, b, c, d, and two built values with the same output have the same
address. -/
theorem C8_ToDecimal_round_trip (ip : Option NetIP) (ipf : IPFuscator)
    (h : New ip = Built.ok ipf) :
    ∃ a b c d : Byte, ipf.IP = [a, b, c, d] ∧
      ToDecimal ipf
        = some (FormatUint (a.val * 2 ^ 24 + b.val * 2 ^ 16 + c.val * 2 ^ 8 + d.val) 10) ∧
      ∃ s v, ToDecimal ipf = some s ∧ (s.data.head? = some '0' → s = "0") ∧
        ParseUint s 10 32 = some v ∧ v < 2 ^ 32 ∧
        bigEndianBytes v = [a.val, b.val, c.val, d.val] ∧
        ∀ ip2 ipf2, New ip2 = Built.ok ipf2 → ToDecimal ipf2 = ToDecimal ipf →
          ipf2.IP = ipf.IP := by
  obtain ⟨a, b, c, d, rfl⟩ := New_ok_shape ip ipf h
  obtain ⟨hlt, hbytes⟩ := octets_of_sum a.val b.val c.val d.val a.isLt b.isLt c.isLt d.isLt
  refine ⟨a, b, c, d, rfl, ToDecimal_model a b c d, _, _, ToDecimal_model a b c d, ?_,
    ParseUint_FormatUint 10 32 _ (by decide) (by decide) hlt, hlt, hbytes, ?_⟩
  · intro h0
    have hz := toDigits_head_zero 10 (by decide) (by decide) _ h0
    rw [hz]
    rfl
  · intro ip2 ipf2 h2 heq
    obtain ⟨a2, b2, c2, d2, rfl⟩ := New_ok_shape ip2 ipf2 h2
    rw [ToDecimal_model, ToDecimal_model] at heq
    have hv := FormatUint_injective 10 (by decide) (by decide) _ _ (Option.some.inj heq)
    have e2 := (octets_of_sum a2.val b2.val c2.val d2.val a2.isLt b2.isLt c2.isLt d2.isLt).2
    rw [hv, hbytes] at e2
    simp only [List.cons.injEq, and_true] at e2
    obtain ⟨ea, eb, ec, ed⟩ := e2
    simp only [model, List.cons.injEq, and_true]
    exact ⟨(Fin.ext ea).symm, (Fin.ext eb).symm, (Fin.ext ec).symm, (Fin.ext ed).symm⟩

theorem C8_ToDecimal_round_trip_witness :
    New (addr4 192 168 0 1) = Built.ok (model 192 168 0 1) ∧
    ToDecimal (model 192 168 0 1) = some "3232235521" ∧
    ∃ a b c d : Byte, (model 192 168 0 1).IP = [a, b, c, d] ∧
      ToDecimal (model 192 168 0 1)
        = some (FormatUint (a.val * 2 ^ 24 + b.val * 2 ^ 16 + c.val * 2 ^ 8 + d.val) 10) ∧
      ∃ s v, ToDecimal (model 192 168 0 1) = some s ∧ (s.data.head? = some '0' → s = "0") ∧
        ParseUint s 10 32 = some v ∧ v < 2 ^ 32 ∧
        bigEndianBytes v = [a.val, b.val, c.val, d.val] ∧
        ∀ ip2 ipf2, New ip2 = Built.ok ipf2 → ToDecimal ipf2 = ToDecimal (model 192 168 0 1) →
          ipf2.IP = (model 192 168 0 1).IP :=
  ⟨New_addr4 192 168 0 1, by decide,
    C8_ToDecimal_round_trip (addr4 192 168 0 1) (model 192 168 0 1) (New_addr4 192 168 0 1)⟩

/-- C9: for every address, `ToOctal` returns "0" followed by the four octal
octet strings joined by '.'; after one leading '0' is removed, splitting on
'.' gives exactly four tokens, and token i parsed in base 8 is octet i. -/
theorem C9_ToOctal_tokens (ip : Option NetIP) (ipf : IPFuscator) (h : New ip = Built.ok ipf) :
    ∃ a b c d : Byte, ipf.IP = [a, b, c, d] ∧
      ToOctal ipf = "0" ++ (FormatUint a.val 8 ++ "." ++ (FormatUint b.val 8 ++ "." ++
        (FormatUint c.val 8 ++ "." ++ FormatUint d.val 8))) ∧
      ∃ rest t0 t1 t2 t3, dropLeading "0" (ToOctal ipf) = some rest ∧
        Split rest "." = [t0, t1, t2, t3] ∧
        ParseUint t0 8 8 = some a.val ∧ ParseUint t1 8 8 = some b.val ∧
        ParseUint t2 8 8 = some c.val ∧ ParseUint t3 8 8 = some d.val := by
  obtain ⟨a, b, c, d, rfl⟩ := New_ok_shape ip ipf h
  have hp : ∀ x : Byte, ParseUint (FormatUint x.val 8) 8 8 = some x.val :=
    fun x => ParseUint_FormatUint 8 8 x.val (by decide) (by decide) x.isLt
  refine ⟨a, b, c, d, rfl, ?_, Join [FormatUint a.val 8, FormatUint b.val 8,
    FormatUint c.val 8, FormatUint d.val 8] ".", FormatUint a.val 8, FormatUint b.val 8,
    FormatUint c.val 8, FormatUint d.val 8, ?_, ?_, hp a, hp b, hp c, hp d⟩
  · rw [ToOctal_model]; rfl
  · rw [ToOctal_model]; exact dropLeading_append "0" _
  · exact Split_four _ _ _ _ (octet_dot_free a).2.2.1 (octet_dot_free b).2.2.1
      (octet_dot_free c).2.2.1 (octet_dot_free d).2.2.1

theorem C9_ToOctal_tokens_witness :
    New (addr4 192 168 0 1) = Built.ok (model 192 168 0 1) ∧
    ToOctal (model 192 168 0 1) = "0300.250.0.1" ∧
    ∃ a b c d : Byte, (model 192 168 0 1).IP = [a, b, c, d] ∧
      ToOctal (model 192 168 0 1) = "0" ++ (FormatUint a.val 8 ++ "." ++
        (FormatUint b.val 8 ++ "." ++ (FormatUint c.val 8 ++ "." ++ FormatUint d.val 8))) ∧
      ∃ rest t0 t1 t2 t3, dropLeading "0" (ToOctal (model 192 168 0 1)) = some rest ∧
        Split rest "." = [t0, t1, t2, t3] ∧
        ParseUint t0 8 8 = some a.val ∧ ParseUint t1 8 8 = some b.val ∧
        ParseUint t2 8 8 = some c.val ∧ ParseUint t3 8 8 = some d.val :=
  ⟨New_addr4 192 168 0 1, by decide,
    C9_ToOctal_tokens (addr4 192 168 0 1) (model 192 168 0 1) (New_addr4 192 168 0 1)⟩

/-- C10: for every address, `ToHex` returns the four hexadecimal octet strings
joined by '.'; splitting on '.' gives exactly four tokens, each starting with
"0x", and the rest of token i parsed in base 16 is octet i. -/
theorem C10_ToHex_tokens (ip : Option NetIP) (ipf : IPFuscator) (h : New ip = Built.ok ipf) :
    ∃ a b c d : Byte, ipf.IP = [a, b, c, d] ∧
      ToHex ipf = ("0x" ++ FormatUint a.val 16) ++ "." ++ (("0x" ++ FormatUint b.val 16) ++ "." ++
        (("0x" ++ FormatUint c.val 16) ++ "." ++ ("0x" ++ FormatUint d.val 16))) ∧
      ∃ t0 t1 t2 t3 r0 r1 r2 r3, Split (ToHex ipf) "." = [t0, t1, t2, t3] ∧
        dropLeading "0x" t0 = some r0 ∧ dropLeading "0x" t1 = some r1 ∧
        dropLeading "0x" t2 = some r2 ∧ dropLeading "0x" t3 = some r3 ∧
        ParseUint r0 16 8 = some a.val ∧ ParseUint r1 16 8 = some b.val ∧
        ParseUint r2 16 8 = some c.val ∧ ParseUint r3 16 8 = some d.val := by
  obtain ⟨a, b, c, d, rfl⟩ := New_ok_shape ip ipf h
  have hp : ∀ x : Byte, ParseUint (FormatUint x.val 16) 16 8 = some x.val :=
    fun x => ParseUint_FormatUint 16 8 x.val (by decide) (by decide) x.isLt
  refine ⟨a, b, c, d, rfl, ?_, "0x" ++ FormatUint a.val 16, "0x" ++ FormatUint b.val 16,
    "0x" ++ FormatUint c.val 16, "0x" ++ FormatUint d.val 16, FormatUint a.val 16,
    FormatUint b.val 16, FormatUint c.val 16, FormatUint d.val 16, ?_,
    dropLeading_append "0x" _,
    dropLeading_append "0x" _, dropLeading_append "0x" _, dropLeading_append "0x" _,
    hp a, hp b, hp c, hp d⟩
  · rw [ToHex_model]; rfl
  · rw [ToHex_model]
    exact Split_four _ _ _ _ (octet_dot_free a).2.1 (octet_dot_free b).2.1
      (octet_dot_free c).2.1 (octet_dot_free d).2.1

theorem C10_ToHex_tokens_witness :
    New (addr4 192 168 0 1) = Built.ok (model 192 168 0 1) ∧
    ToHex (model 192 168 0 1) = "0xc0.0xa8.0x0.0x1" ∧
    ∃ a b c d : Byte, (model 192 168 0 1).IP = [a, b, c, d] ∧
      ToHex (model 192 168 0 1) = ("0x" ++ FormatUint a.val 16) ++ "." ++
        (("0x" ++ FormatUint b.val 16) ++ "." ++
        (("0x" ++ FormatUint c.val 16) ++ "." ++ ("0x" ++ FormatUint d.val 16))) ∧
      ∃ t0 t1 t2 t3 r0 r1 r2 r3, Split (ToHex (model 192 168 0 1)) "." = [t0, t1, t2, t3] ∧
        dropLeading "0x" t0 = some r0 ∧ dropLeading "0x" t1 = some r1 ∧
        dropLeading "0x" t2 = some r2 ∧ dropLeading "0x" t3 = some r3 ∧
        ParseUint r0 16 8 = some a.val ∧ ParseUint r1 16 8 = some b.val ∧
        ParseUint r2 16 8 = some c.val ∧ ParseUint r3 16 8 = some d.val :=
  ⟨New_addr4 192 168 0 1, by decide,
    C10_ToHex_tokens (addr4 192 168 0 1) (model 192 168 0 1) (New_addr4 192 168 0 1)⟩

/-- C11: for every address and every state of the random source,
`ToHexWithPadding` makes exactly four draws k0..k3 below 30, one per octet,
and returns the four tokens "0x" + (ki + 1 characters '0') + hexadecimal
digits of octet i, joined by '.'; splitting the output on '.' gives these
four tokens, and each token after its "0x" parses in base 16 to its octet. -/
theorem C11_ToHexWithPadding_tokens (ip : Option NetIP) (ipf : IPFuscator)
    (h : New ip = Built.ok ipf) (src : Source) :
    ∃ a b c d : Byte, ipf.IP = [a, b, c, d] ∧
      (draw 30 src 0 < 30 ∧ draw 30 src 1 < 30 ∧ draw 30 src 2 < 30 ∧ draw 30 src 3 < 30) ∧
      ∃ out t0 t1 t2 t3, ToHexWithPadding ipf src = some (out, advance src 4) ∧
        t0 = "0x" ++ (Repeat "0" (draw 30 src 0 + 1) ++ FormatUint a.val 16) ∧
        t1 = "0x" ++ (Repeat "0" (draw 30 src 1 + 1) ++ FormatUint b.val 16) ∧
        t2 = "0x" ++ (Repeat "0" (draw 30 src 2 + 1) ++ FormatUint c.val 16) ∧
        t3 = "0x" ++ (Repeat "0" (draw 30 src 3 + 1) ++ FormatUint d.val 16) ∧
        out = t0 ++ "." ++ (t1 ++ "." ++ (t2 ++ "." ++ t3)) ∧
        Split out "." = [t0, t1, t2, t3] ∧
        (dropLeading "0x" t0).bind (fun r => ParseUint r 16 8) = some a.val ∧
        (dropLeading "0x" t1).bind (fun r => ParseUint r 16 8) = some b.val ∧
        (dropLeading "0x" t2).bind (fun r => ParseUint r 16 8) = some c.val ∧
        (dropLeading "0x" t3).bind (fun r => ParseUint r 16 8) = some d.val := by
  obtain ⟨a, b, c, d, rfl⟩ := New_ok_shape ip ipf h
  have hd := fun i => draw_lt 30 (by decide) src i
  refine ⟨a, b, c, d, rfl, ⟨hd 0, hd 1, hd 2, hd 3⟩, _, _, _, _, _,
    ToHexWithPadding_explicit a b c d src, rfl, rfl, rfl, rfl, rfl, ?_,
    parse_hex_token _ a, parse_hex_token _ b, parse_hex_token _ c, parse_hex_token _ d⟩
  exact Split_four _ _ _ _ (dot_free_hex_token _ _) (dot_free_hex_token _ _)
    (dot_free_hex_token _ _) (dot_free_hex_token _ _)

theorem C11_ToHexWithPadding_tokens_witness :
    New (addr4 192 168 0 1) = Built.ok (model 192 168 0 1) ∧
    (ToHexWithPadding (model 192 168 0 1) allSeven).map (fun r => (r.1, r.2.pos))
      = some ("0x00000000c0.0x00000000a8.0x000000000.0x000000001", 4) ∧
    ∃ a b c d : Byte, (model 192 168 0 1).IP = [a, b, c, d] ∧
      (draw 30 allSeven 0 < 30 ∧ draw 30 allSeven 1 < 30 ∧ draw 30 allSeven 2 < 30 ∧
        draw 30 allSeven 3 < 30) ∧
      ∃ out t0 t1 t2 t3,
        ToHexWithPadding (model 192 168 0 1) allSeven = some (out, advance allSeven 4) ∧
        t0 = "0x" ++ (Repeat "0" (draw 30 allSeven 0 + 1) ++ FormatUint a.val 16) ∧
        t1 = "0x" ++ (Repeat "0" (draw 30 allSeven 1 + 1) ++ FormatUint b.val 16) ∧
        t2 = "0x" ++ (Repeat "0" (draw 30 allSeven 2 + 1) ++ FormatUint c.val 16) ∧
        t3 = "0x" ++ (Repeat "0" (draw 30 allSeven 3 + 1) ++ FormatUint d.val 16) ∧
        out = t0 ++ "." ++ (t1 ++ "." ++ (t2 ++ "." ++ t3)) ∧
        Split out "." = [t0, t1, t2, t3] ∧
        (dropLeading "0x" t0).bind (fun r => ParseUint r 16 8) = some a.val ∧
        (dropLeading "0x" t1).bind (fun r => ParseUint r 16 8) = some b.val ∧
        (dropLeading "0x" t2).bind (fun r => ParseUint r 16 8) = some c.val ∧
        (dropLeading "0x" t3).bind (fun r => ParseUint r 16 8) = some d.val :=
  ⟨New_addr4 192 168 0 1, by decide,
    C11_ToHexWithPadding_tokens (addr4 192 168 0 1) (model 192 168 0 1)
      (New_addr4 192 168 0 1) allSeven⟩

/-- C12: for every address and every state of the random source,
`ToOctalWithPadding` makes exactly four draws k0..k3 below 30, one per octet,
and returns the four tokens (ki + 1 characters '0') + octal digits of octet i,
joined by '.', with nothing else in front; splitting the output on '.' gives
these four tokens, and each token parses in base 8 to its octet. -/
theorem C12_ToOctalWithPadding_tokens (ip : Option NetIP) (ipf : IPFuscator)
    (h : New ip = Built.ok ipf) (src : Source) :
    ∃ a b c d : Byte, ipf.IP = [a, b, c, d] ∧
      (draw 30 src 0 < 30 ∧ draw 30 src 1 < 30 ∧ draw 30 src 2 < 30 ∧ draw 30 src 3 < 30) ∧
      ∃ out t0 t1 t2 t3, ToOctalWithPadding ipf src = some (out, advance src 4) ∧
        t0 = Repeat "0" (draw 30 src 0 + 1) ++ FormatUint a.val 8 ∧
        t1 = Repeat "0" (draw 30 src 1 + 1) ++ FormatUint b.val 8 ∧
        t2 = Repeat "0" (draw 30 src 2 + 1) ++ FormatUint c.val 8 ∧
        t3 = Repeat "0" (draw 30 src 3 + 1) ++ FormatUint d.val 8 ∧
        out = t0 ++ "." ++ (t1 ++ "." ++ (t2 ++ "." ++ t3)) ∧
        Split out "." = [t0, t1, t2, t3] ∧
        ParseUint t0 8 8 = some a.val ∧ ParseUint t1 8 8 = some b.val ∧
        ParseUint t2 8 8 = some c.val ∧ ParseUint t3 8 8 = some d.val := by
  obtain ⟨a, b, c, d, rfl⟩ := New_ok_shape ip ipf h
  have hd := fun i => draw_lt 30 (by decide) src i
  refine ⟨a, b, c, d, rfl, ⟨hd 0, hd 1, hd 2, hd 3⟩, _, _, _, _, _,
    ToOctalWithPadding_explicit a b c d src, rfl, rfl, rfl, rfl, rfl, ?_,
    parse_octal_token _ a, parse_octal_token _ b, parse_octal_token _ c,
    parse_octal_token _ d⟩
  exact Split_four _ _ _ _ (dot_free_octal_token _ _) (dot_free_octal_token _ _)
    (dot_free_octal_token _ _) (dot_free_octal_token _ _)

theorem C12_ToOctalWithPadding_tokens_witness :
    New (addr4 192 168 0 1) = Built.ok (model 192 168 0 1) ∧
    (ToOctalWithPadding (model 192 168 0 1) allSeven).map (fun r => (r.1, r.2.pos))
      = some ("00000000300.00000000250.000000000.000000001", 4) ∧
    ∃ a b c d : Byte, (model 192 168 0 1).IP = [a, b, c, d] ∧
      (draw 30 allSeven 0 < 30 ∧ draw 30 allSeven 1 < 30 ∧ draw 30 allSeven 2 < 30 ∧
        draw 30 allSeven 3 < 30) ∧
      ∃ out t0 t1 t2 t3,
        ToOctalWithPadding (model 192 168 0 1) allSeven = some (out, advance allSeven 4) ∧
        t0 = Repeat "0" (draw 30 allSeven 0 + 1) ++ FormatUint a.val 8 ∧
        t1 = Repeat "0" (draw 30 allSeven 1 + 1) ++ FormatUint b.val 8 ∧
        t2 = Repeat "0" (draw 30 allSeven 2 + 1) ++ FormatUint c.val 8 ∧
        t3 = Repeat "0" (draw 30 allSeven 3 + 1) ++ FormatUint d.val 8 ∧
        out = t0 ++ "." ++ (t1 ++ "." ++ (t2 ++ "." ++ t3)) ∧
        Split out "." = [t0, t1, t2, t3] ∧
        ParseUint t0 8 8 = some a.val ∧ ParseUint t1 8 8 = some b.val ∧
        ParseUint t2 8 8 = some c.val ∧ ParseUint t3 8 8 = some d.val :=
  ⟨New_addr4 192 168 0 1, by decide,
    C12_ToOctalWithPadding_tokens (addr4 192 168 0 1) (model 192 168 0 1)
      (New_addr4 192 168 0 1) allSeven⟩

/-- C13: for every address and every state of the random source, splitting
the output of `ToBaseWithPadding` on '.' gives exactly four tokens; each
consists of ASCII digits only and parses in base 10 to its octet, and the
token of a non-zero octet is its unpadded decimal string. -/
theorem C13_ToBaseWithPadding_tokens (ip : Option NetIP) (ipf : IPFuscator)
    (h : New ip = Built.ok ipf) (src : Source) :
    ∃ a b c d : Byte, ipf.IP = [a, b, c, d] ∧
      ∃ out src1 t0 t1 t2 t3, ToBaseWithPadding ipf src = some (out, src1) ∧
        Split out "." = [t0, t1, t2, t3] ∧
        (∀ t ∈ [t0, t1, t2, t3], ∀ ch ∈ t.data, '0' ≤ ch ∧ ch ≤ '9') ∧
        ParseUint t0 10 8 = some a.val ∧ ParseUint t1 10 8 = some b.val ∧
        ParseUint t2 10 8 = some c.val ∧ ParseUint t3 10 8 = some d.val ∧
        (a.val ≠ 0 → t0 = FormatUint a.val 10) ∧ (b.val ≠ 0 → t1 = FormatUint b.val 10) ∧
        (c.val ≠ 0 → t2 = FormatUint c.val 10) ∧ (d.val ≠ 0 → t3 = FormatUint d.val 10) := by
  obtain ⟨a, b, c, d, rfl⟩ := New_ok_shape ip ipf h
  obtain ⟨t0, n0, t1, n1, t2, n2, t3, n3, p0, p1, p2, p3, hout⟩ :=
    ToBaseWithPadding_explicit a b c d src
  obtain ⟨f0, g0, q0, u0⟩ := padToken_facts _ _ _ _ p0
  obtain ⟨f1, g1, q1, u1⟩ := padToken_facts _ _ _ _ p1
  obtain ⟨f2, g2, q2, u2⟩ := padToken_facts _ _ _ _ p2
  obtain ⟨f3, g3, q3, u3⟩ := padToken_facts _ _ _ _ p3
  refine ⟨a, b, c, d, rfl, _, _, t0, t1, t2, t3, hout, Split_four _ _ _ _ f0 f1 f2 f3, ?_,
    q0, q1, q2, q3, u0, u1, u2, u3⟩
  intro t ht
  simp only [List.mem_cons, List.mem_singleton, List.not_mem_nil, or_false] at ht
  rcases ht with e | e | e | e <;> rw [e] <;> assumption

theorem C13_ToBaseWithPadding_tokens_witness :
    New (addr4 0 1 1 1) = Built.ok (model 0 1 1 1) ∧
    (ToBaseWithPadding (model 0 1 1 1) fiveThenZero).map (fun r => r.1) = some "00.1.1.1" ∧
    ∃ a b c d : Byte, (model 0 1 1 1).IP = [a, b, c, d] ∧
      ∃ out src1 t0 t1 t2 t3,
        ToBaseWithPadding (model 0 1 1 1) fiveThenZero = some (out, src1) ∧
        Split out "." = [t0, t1, t2, t3] ∧
        (∀ t ∈ [t0, t1, t2, t3], ∀ ch ∈ t.data, '0' ≤ ch ∧ ch ≤ '9') ∧
        ParseUint t0 10 8 = some a.val ∧ ParseUint t1 10 8 = some b.val ∧
        ParseUint t2 10 8 = some c.val ∧ ParseUint t3 10 8 = some d.val ∧
        (a.val ≠ 0 → t0 = FormatUint a.val 10) ∧ (b.val ≠ 0 → t1 = FormatUint b.val 10) ∧
        (c.val ≠ 0 → t2 = FormatUint c.val 10) ∧ (d.val ≠ 0 → t3 = FormatUint d.val 10) :=
  ⟨New_addr4 0 1 1 1, by decide,
    C13_ToBaseWithPadding_tokens (addr4 0 1 1 1) (model 0 1 1 1) (New_addr4 0 1 1 1)
      fiveThenZero⟩

/-- C20: the padding loop of `ToBaseWithPadding` draws at every evaluation of
its condition and still ends for every state of the random source: started
on any builder, with any bound of at least 31 evaluations, it writes `k` pad
zeros and makes `k + 1` draws, where `k`, between 1 and 30, is the least
number whose draw is below it. In the whole call each zero octet costs
between 2 and 31 draws and each non-zero octet none, so the call makes at
most 124 draws, and none when no octet is zero. -/
theorem C20_padding_loop_terminates (ip : Option NetIP) (ipf : IPFuscator)
    (h : New ip = Built.ok ipf) (src : Source) (out : String) :
    (∃ k, 1 ≤ k ∧ k ≤ 30 ∧ draw 30 src k < k ∧ (∀ j, j < k → ¬ draw 30 src j < j) ∧
      ∀ fuel, 31 ≤ fuel →
        padLoop fuel 0 out src = some (out ++ Repeat "0" k, advance src (k + 1))) ∧
    ∃ a b c d : Byte, ipf.IP = [a, b, c, d] ∧
      ∃ t0 n0 t1 n1 t2 n2 t3 n3,
        padToken a src t0 n0 ∧ padToken b (advance src n0) t1 n1 ∧
        padToken c (advance src (n0 + n1)) t2 n2 ∧
        padToken d (advance src (n0 + n1 + n2)) t3 n3 ∧
        ToBaseWithPadding ipf src
          = some (t0 ++ "." ++ (t1 ++ "." ++ (t2 ++ "." ++ t3)),
              advance src (n0 + n1 + n2 + n3)) ∧
        ((a.val = 0 → 2 ≤ n0 ∧ n0 ≤ 31) ∧ (b.val = 0 → 2 ≤ n1 ∧ n1 ≤ 31) ∧
          (c.val = 0 → 2 ≤ n2 ∧ n2 ≤ 31) ∧ (d.val = 0 → 2 ≤ n3 ∧ n3 ≤ 31)) ∧
        ((a.val ≠ 0 → n0 = 0) ∧ (b.val ≠ 0 → n1 = 0) ∧ (c.val ≠ 0 → n2 = 0) ∧
          (d.val ≠ 0 → n3 = 0)) ∧
        n0 + n1 + n2 + n3 ≤ 124 ∧
        (a.val ≠ 0 ∧ b.val ≠ 0 ∧ c.val ≠ 0 ∧ d.val ≠ 0 → n0 + n1 + n2 + n3 = 0) := by
  constructor
  · obtain ⟨k, hk1, hk30, hd, hmin, _⟩ := padLoop_from_zero out src
    refine ⟨k, hk1, hk30, hd, hmin, ?_⟩
    intro fuel hf
    obtain ⟨m, _, hdm, hminm, hres⟩ := padLoop_exact fuel 0 out src (by omega) (by omega)
    simp only [Nat.zero_add] at hdm hminm
    have hmk : m = k := by
      rcases Nat.lt_trichotomy m k with hlt | heq | hgt
      · exact absurd hdm (hmin m hlt)
      · exact heq
      · exact absurd hd (hminm k hgt)
    rw [hres, hmk]
  · obtain ⟨a, b, c, d, rfl⟩ := New_ok_shape ip ipf h
    obtain ⟨t0, n0, t1, n1, t2, n2, t3, n3, p0, p1, p2, p3, hout⟩ :=
      ToBaseWithPadding_explicit a b c d src
    obtain ⟨z0, r0, b0⟩ := padToken_draws _ _ _ _ p0
    obtain ⟨z1, r1, b1⟩ := padToken_draws _ _ _ _ p1
    obtain ⟨z2, r2, b2⟩ := padToken_draws _ _ _ _ p2
    obtain ⟨z3, r3, b3⟩ := padToken_draws _ _ _ _ p3
    refine ⟨a, b, c, d, rfl, t0, n0, t1, n1, t2, n2, t3, n3, p0, p1, p2, p3, hout,
      ⟨r0, r1, r2, r3⟩, ⟨z0, z1, z2, z3⟩, by omega, ?_⟩
    rintro ⟨ha, hb, hc, hd⟩
    have := z0 ha
    have := z1 hb
    have := z2 hc
    have := z3 hd
    omega

theorem C20_padding_loop_terminates_witness :
    New (addr4 0 1 1 1) = Built.ok (model 0 1 1 1) ∧
    (padLoop 31 0 "" fiveThenZero).map (fun r => (r.1, r.2.pos)) = some ("0", 2) ∧
    (∃ k, 1 ≤ k ∧ k ≤ 30 ∧ draw 30 fiveThenZero k < k ∧
      (∀ j, j < k → ¬ draw 30 fiveThenZero j < j) ∧
      ∀ fuel, 31 ≤ fuel →
        padLoop fuel 0 "" fiveThenZero
          = some ("" ++ Repeat "0" k, advance fiveThenZero (k + 1))) ∧
    ∃ a b c d : Byte, (model 0 1 1 1).IP = [a, b, c, d] ∧
      ∃ t0 n0 t1 n1 t2 n2 t3 n3,
        padToken a fiveThenZero t0 n0 ∧ padToken b (advance fiveThenZero n0) t1 n1 ∧
        padToken c (advance fiveThenZero (n0 + n1)) t2 n2 ∧
        padToken d (advance fiveThenZero (n0 + n1 + n2)) t3 n3 ∧
        ToBaseWithPadding (model 0 1 1 1) fiveThenZero
          = some (t0 ++ "." ++ (t1 ++ "." ++ (t2 ++ "." ++ t3)),
              advance fiveThenZero (n0 + n1 + n2 + n3)) ∧
        ((a.val = 0 → 2 ≤ n0 ∧ n0 ≤ 31) ∧ (b.val = 0 → 2 ≤ n1 ∧ n1 ≤ 31) ∧
          (c.val = 0 → 2 ≤ n2 ∧ n2 ≤ 31) ∧ (d.val = 0 → 2 ≤ n3 ∧ n3 ≤ 31)) ∧
        ((a.val ≠ 0 → n0 = 0) ∧ (b.val ≠ 0 → n1 = 0) ∧ (c.val ≠ 0 → n2 = 0) ∧
          (d.val ≠ 0 → n3 = 0)) ∧
        n0 + n1 + n2 + n3 ≤ 124 ∧
        (a.val ≠ 0 ∧ b.val ≠ 0 ∧ c.val ≠ 0 ∧ d.val ≠ 0 → n0 + n1 + n2 + n3 = 0) :=
  ⟨New_addr4 0 1 1 1, by decide,
    C20_padding_loop_terminates (addr4 0 1 1 1) (model 0 1 1 1) (New_addr4 0 1 1 1)
      fiveThenZero ""⟩

/-- C15: for every value and every state of the random source, the first draw
s of `ToRandBaseWithPadding` is below 3 and the result is exactly that of
`ToBaseWithPadding` (s = 0), `ToHexWithPadding` (s = 1) or
`ToOctalWithPadding` (s = 2) on the same value and on the source after that
draw: the same output, the same source afterwards, nothing added. -/
theorem C15_ToRandBaseWithPadding_dispatch (ipf : IPFuscator) (src : Source) :
    draw 3 src 0 < 3 ∧
    ToRandBaseWithPadding ipf src
      = if draw 3 src 0 = 0 then ToBaseWithPadding ipf (advance src 1)
        else if draw 3 src 0 = 1 then ToHexWithPadding ipf (advance src 1)
        else ToOctalWithPadding ipf (advance src 1) := by
  have hlt : draw 3 src 0 < 3 := draw_lt 3 (by decide) src 0
  have hid : ∀ x : Option (String × Source), x.map (fun r => ("" ++ r.1, r.2)) = x := by
    intro x
    cases x with
    | none => rfl
    | some r => simp only [Option.map_some', empty_append]
  refine ⟨hlt, ?_⟩
  simp only [ToRandBaseWithPadding, genRandBaseWithPadding, Intn_fst, Intn_snd, hid]
  by_cases h0 : draw 3 src 0 = 0
  · simp only [h0, if_true]
  · by_cases h1 : draw 3 src 0 = 1
    · simp only [h1, if_true, if_false, Nat.one_ne_zero]
    · have h2 : draw 3 src 0 = 2 := by omega
      simp [h2]

/-- C14: for every address and every state of the random source, `ToRandBase`
makes exactly four draws s0..s3 below 3 and returns four tokens joined by
'.'; token i is `ips[i]` for si = 0, `hex[i]` for si = 1, and for si = 2
`octal[i]` with a single "0" in front exactly at index 0; each token read in
the base of its draw gives back octet i (`randToken`). -/
theorem C14_ToRandBase_tokens (ip : Option NetIP) (ipf : IPFuscator)
    (h : New ip = Built.ok ipf) (src : Source) :
    ∃ a b c d : Byte, ipf.IP = [a, b, c, d] ∧
      (draw 3 src 0 < 3 ∧ draw 3 src 1 < 3 ∧ draw 3 src 2 < 3 ∧ draw 3 src 3 < 3) ∧
      ∃ out t0 t1 t2 t3, ToRandBase ipf src = some (out, advance src 4) ∧
        out = t0 ++ "." ++ (t1 ++ "." ++ (t2 ++ "." ++ t3)) ∧
        Split out "." = [t0, t1, t2, t3] ∧
        randToken ipf 0 a (draw 3 src 0) t0 ∧ randToken ipf 1 b (draw 3 src 1) t1 ∧
        randToken ipf 2 c (draw 3 src 2) t2 ∧ randToken ipf 3 d (draw 3 src 3) t3 := by
  obtain ⟨a, b, c, d, rfl⟩ := New_ok_shape ip ipf h
  have hd := fun i => draw_lt 3 (by decide) src i
  obtain ⟨t0, t1, t2, t3, ⟨r0, f0⟩, ⟨r1, f1⟩, ⟨r2, f2⟩, ⟨r3, f3⟩, hout⟩ :=
    ToRandBase_explicit a b c d src
  exact ⟨a, b, c, d, rfl, ⟨hd 0, hd 1, hd 2, hd 3⟩, _, t0, t1, t2, t3, hout, rfl,
    Split_four _ _ _ _ f0 f1 f2 f3, r0, r1, r2, r3⟩

theorem C14_ToRandBase_tokens_witness :
    New (addr4 192 168 0 1) = Built.ok (model 192 168 0 1) ∧
    (ToRandBase (model 192 168 0 1) fiveThenZero).map (fun r => (r.1, r.2.pos))
      = some ("0300.168.0.1", 4) ∧
    ∃ a b c d : Byte, (model 192 168 0 1).IP = [a, b, c, d] ∧
      (draw 3 fiveThenZero 0 < 3 ∧ draw 3 fiveThenZero 1 < 3 ∧ draw 3 fiveThenZero 2 < 3 ∧
        draw 3 fiveThenZero 3 < 3) ∧
      ∃ out t0 t1 t2 t3,
        ToRandBase (model 192 168 0 1) fiveThenZero = some (out, advance fiveThenZero 4) ∧
        out = t0 ++ "." ++ (t1 ++ "." ++ (t2 ++ "." ++ t3)) ∧
        Split out "." = [t0, t1, t2, t3] ∧
        randToken (model 192 168 0 1) 0 a (draw 3 fiveThenZero 0) t0 ∧
        randToken (model 192 168 0 1) 1 b (draw 3 fiveThenZero 1) t1 ∧
        randToken (model 192 168 0 1) 2 c (draw 3 fiveThenZero 2) t2 ∧
        randToken (model 192 168 0 1) 3 d (draw 3 fiveThenZero 3) t3 :=
  ⟨New_addr4 192 168 0 1, by decide,
    C14_ToRandBase_tokens (addr4 192 168 0 1) (model 192 168 0 1) (New_addr4 192 168 0 1)
      fiveThenZero⟩

/-- C18: for every address a.b.c.d, `ToIPv6CompatibleV4` returns exactly
"[::ffff:" followed by the dotted decimal of the four octets and "]". -/
theorem C18_ToIPv6CompatibleV4_exact (ip : Option NetIP) (ipf : IPFuscator)
    (h : New ip = Built.ok ipf) :
    ∃ a b c d : Byte, ipf.IP = [a, b, c, d] ∧
      IPString ipf.IP = some (FormatUint a.val 10 ++ "." ++ FormatUint b.val 10 ++ "." ++
        FormatUint c.val 10 ++ "." ++ FormatUint d.val 10) ∧
      ToIPv6CompatibleV4 ipf = some ("[::ffff:" ++ (FormatUint a.val 10 ++ "." ++
        FormatUint b.val 10 ++ "." ++ FormatUint c.val 10 ++ "." ++ FormatUint d.val 10)
        ++ "]") := by
  obtain ⟨a, b, c, d, rfl⟩ := New_ok_shape ip ipf h
  exact ⟨a, b, c, d, rfl, IPString_four a b c d, ToIPv6CompatibleV4_model a b c d⟩

theorem C18_ToIPv6CompatibleV4_exact_witness :
    New (addr4 192 168 0 1) = Built.ok (model 192 168 0 1) ∧
    ToIPv6CompatibleV4 (model 192 168 0 1) = some "[::ffff:192.168.0.1]" ∧
    ∃ a b c d : Byte, (model 192 168 0 1).IP = [a, b, c, d] ∧
      IPString (model 192 168 0 1).IP = some (FormatUint a.val 10 ++ "." ++
        FormatUint b.val 10 ++ "." ++ FormatUint c.val 10 ++ "." ++ FormatUint d.val 10) ∧
      ToIPv6CompatibleV4 (model 192 168 0 1) = some ("[::ffff:" ++ (FormatUint a.val 10 ++
        "." ++ FormatUint b.val 10 ++ "." ++ FormatUint c.val 10 ++ "." ++
        FormatUint d.val 10) ++ "]") :=
  ⟨New_addr4 192 168 0 1, by decide,
    C18_ToIPv6CompatibleV4_exact (addr4 192 168 0 1) (model 192 168 0 1)
      (New_addr4 192 168 0 1)⟩

/-- C19: for every address and every state of the random source, the fourth
'.'-separated token of the output of `ToRand8Bits` is the decimal string of
the draw `rand.Intn(255)`, a number from 0 to 254: it is never 255. -/
theorem C19_ToRand8Bits_last_octet (ip : Option NetIP) (ipf : IPFuscator)
    (h : New ip = Built.ok ipf) (src : Source) :
    ∃ out t0 t1 t2 t3 r, ToRand8Bits ipf src = some (out, advance src 1) ∧
      Split out "." = [t0, t1, t2, t3] ∧ r = draw 255 src 0 ∧ t3 = FormatUint r 10 ∧
      ParseUint t3 10 8 = some r ∧ r ≤ 254 ∧ ParseUint t3 10 8 ≠ some 255 := by
  obtain ⟨a, b, c, d, rfl⟩ := New_ok_shape ip ipf h
  have hr : draw 255 src 0 < 255 := draw_lt 255 (by decide) src 0
  have hp : ParseUint (FormatUint (draw 255 src 0) 10) 10 8 = some (draw 255 src 0) :=
    ParseUint_FormatUint 10 8 _ (by decide) (by decide) (by
      have : (2 : Nat) ^ 8 = 256 := by decide
      omega)
  have hf := fun n => dot_free_FormatUint n 10 (by decide) (by decide)
  refine ⟨_, FormatUint a.val 10, "0", "0", FormatUint (draw 255 src 0) 10, draw 255 src 0,
    ToRand8Bits_model a b c d src, ?_, rfl, rfl, hp, by omega, ?_⟩
  · have e : FormatUint a.val 10 ++ "." ++ "0" ++ "." ++ "0" ++ "." ++
        FormatUint (Intn 255 src).1 10
        = Join [FormatUint a.val 10, "0", "0", FormatUint (draw 255 src 0) 10] "." := by
      simp only [Join, String.append_assoc, Intn_fst]
    rw [e]
    exact Split_four _ _ _ _ (hf _) (by decide) (by decide) (hf _)
  · rw [hp]
    intro h255
    have := Option.some.inj h255
    omega

theorem C19_ToRand8Bits_last_octet_witness :
    New (addr4 192 168 0 1) = Built.ok (model 192 168 0 1) ∧
    (ToRand8Bits (model 192 168 0 1) ⟨fun _ => 255, 0⟩).map (fun r => r.1)
      = some "192.0.0.0" ∧
    ∃ out t0 t1 t2 t3 r, ToRand8Bits (model 192 168 0 1) allSeven
        = some (out, advance allSeven 1) ∧
      Split out "." = [t0, t1, t2, t3] ∧ r = draw 255 allSeven 0 ∧ t3 = FormatUint r 10 ∧
      ParseUint t3 10 8 = some r ∧ r ≤ 254 ∧ ParseUint t3 10 8 ≠ some 255 :=
  ⟨New_addr4 192 168 0 1, by decide,
    C19_ToRand8Bits_last_octet (addr4 192 168 0 1) (model 192 168 0 1)
      (New_addr4 192 168 0 1) allSeven⟩

/-- C16: for every address, `ToCircledDigits` returns the canonical dotted
decimal with every character replaced by its circled form: the same number of
code points, every '.' kept at its position, every digit d replaced by U+24EA
for d = 0 and by U+2460 + (d - 1) for d in 1..9; the index into the table is
the digit value, within 0..9. -/
theorem C16_ToCircledDigits_map (ip : Option NetIP) (ipf : IPFuscator)
    (h : New ip = Built.ok ipf) :
    ∃ dotted s, IPString ipf.IP = some dotted ∧ ToCircledDigits ipf = some s ∧
      s.data = dotted.data.map circledOf ∧ s.length = dotted.length ∧
      (∀ ch ∈ dotted.data, ch = '.' ∨ ∃ m, m < 10 ∧ ch = Nat.digitChar m) ∧
      (∀ i : Nat, dotted.data[i]? = some '.' → s.data[i]? = some '.') ∧
      (∀ (i m : Nat), m < 10 → dotted.data[i]? = some (Nat.digitChar m) →
        (Nat.digitChar m).toNat - ('0' : Char).toNat = m ∧
        s.data[i]? = some (Char.ofNat (if m = 0 then 0x24EA else 0x2460 + (m - 1)))) := by
  obtain ⟨a, b, c, d, rfl⟩ := New_ok_shape ip ipf h
  have hch := dotted_chars a b c d
  have hloop := circledLoop_map _ hch ""
  have hs : ToCircledDigits (model a b c d)
      = some (String.mk ((FormatUint a.val 10 ++ "." ++ FormatUint b.val 10 ++ "." ++
          FormatUint c.val 10 ++ "." ++ FormatUint d.val 10).data.map circledOf)) := by
    simp only [ToCircledDigits, model, IPString_four]
    rw [hloop]
    rfl
  refine ⟨_, _, IPString_four a b c d, hs, rfl, ?_, hch, ?_, ?_⟩
  · show (List.map circledOf _).length = _
    rw [List.length_map]
    rfl
  · intro i hi
    have hdot : circledOf '.' = '.' := by decide
    simp only [List.getElem?_map, hi, Option.map_some', hdot]
  · intro i m hm hi
    obtain ⟨_, hidx, _, hval⟩ := circled_table m hm
    refine ⟨hidx, ?_⟩
    simp only [List.getElem?_map, hi, Option.map_some', hval]

theorem C16_ToCircledDigits_map_witness :
    New (addr4 192 168 0 1) = Built.ok (model 192 168 0 1) ∧
    ToCircledDigits (model 192 168 0 1) = some "①⑨②.①⑥⑧.⓪.①" ∧
    ∃ dotted s, IPString (model 192 168 0 1).IP = some dotted ∧
      ToCircledDigits (model 192 168 0 1) = some s ∧
      s.data = dotted.data.map circledOf ∧ s.length = dotted.length ∧
      (∀ ch ∈ dotted.data, ch = '.' ∨ ∃ m, m < 10 ∧ ch = Nat.digitChar m) ∧
      (∀ i : Nat, dotted.data[i]? = some '.' → s.data[i]? = some '.') ∧
      (∀ (i m : Nat), m < 10 → dotted.data[i]? = some (Nat.digitChar m) →
        (Nat.digitChar m).toNat - ('0' : Char).toNat = m ∧
        s.data[i]? = some (Char.ofNat (if m = 0 then 0x24EA else 0x2460 + (m - 1)))) :=
  ⟨New_addr4 192 168 0 1, by decide,
    C16_ToCircledDigits_map (addr4 192 168 0 1) (model 192 168 0 1) (New_addr4 192 168 0 1)⟩

/-- C17: for every address, no '.'-separated token of the output of
`ToNoZeros` is "0", no two '.' are adjacent, and the non-empty tokens are the
decimal strings of the non-zero octets in order; putting "0" back at the
indices of the zero octets and joining by '.' gives the dotted decimal of the
address. -/
theorem C17_ToNoZeros_tokens (ip : Option NetIP) (ipf : IPFuscator)
    (h : New ip = Built.ok ipf) :
    ∃ s dotted, ToNoZeros ipf = some s ∧ IPString ipf.IP = some dotted ∧
      "0" ∉ Split s "." ∧ adjacentDots s.data = false ∧
      (Split s ".").filter (fun t => t ≠ "")
        = (ipf.IP.filter (fun x => x.val ≠ 0)).map (fun x => FormatUint x.val 10) ∧
      Join (reinsertZeros ipf.IP ((Split s ".").filter (fun t => t ≠ ""))) "." = dotted := by
  obtain ⟨a, b, c, d, rfl⟩ := New_ok_shape ip ipf h
  have hdf := fun x : Byte => dot_free_FormatUint x.val 10 (by decide) (by decide)
  have hne : ∀ x : Byte, FormatUint x.val 10 ≠ "" :=
    fun x => ne_empty_of_length_pos _ (length_FormatUint_pos x.val 10 (by decide))
  have hfirst : '.' ∉ (if a.val = 0 then "" else FormatUint a.val 10).data := by
    split
    · decide
    · exact hdf a
  have hrest : ∀ t ∈ ([b, c, d].filter (fun x => x.val ≠ 0)).map
      (fun x => FormatUint x.val 10), '.' ∉ t.data ∧ t.data ≠ [] ∧ t ≠ "" ∧ t ≠ "0" := by
    intro t ht
    obtain ⟨x, hx, rfl⟩ := List.mem_map.mp ht
    have hx0 : x.val ≠ 0 := by
      have := (List.mem_filter.mp hx).2
      simpa using this
    refine ⟨hdf x, ?_, hne x, fun e => hx0 ((FormatUint_ten_eq_zero x).mp e)⟩
    intro e
    exact hne x (String.ext e)
  have hsplit := Split_Join _ _ hfirst (fun t ht => (hrest t ht).1)
  have hfilter : ((if a.val = 0 then "" else FormatUint a.val 10) ::
        ([b, c, d].filter (fun x => x.val ≠ 0)).map (fun x => FormatUint x.val 10)).filter
        (fun t => t ≠ "")
      = ((model a b c d).IP.filter (fun x => x.val ≠ 0)).map
        (fun x => FormatUint x.val 10) := by
    have hself : (([b, c, d].filter (fun x => x.val ≠ 0)).map
        (fun x => FormatUint x.val 10)).filter (fun t => t ≠ "")
        = ([b, c, d].filter (fun x => x.val ≠ 0)).map (fun x => FormatUint x.val 10) := by
      apply List.filter_eq_self.mpr
      intro t ht
      simpa using (hrest t ht).2.2.1
    have hA : (model a b c d).IP = a :: [b, c, d] := rfl
    by_cases ha : a.val = 0
    · have hR : ((model a b c d).IP.filter (fun x => x.val ≠ 0))
          = [b, c, d].filter (fun x => x.val ≠ 0) := by
        rw [hA]
        exact List.filter_cons_of_neg (by simp [ha])
      rw [hR, if_pos ha]
      exact (List.filter_cons_of_neg (by simp)).trans hself
    · have hR : ((model a b c d).IP.filter (fun x => x.val ≠ 0))
          = a :: [b, c, d].filter (fun x => x.val ≠ 0) := by
        rw [hA]
        exact List.filter_cons_of_pos (by simpa using ha)
      rw [hR, if_neg ha, List.map_cons]
      exact (List.filter_cons_of_pos (by simpa using hne a)).trans (by rw [hself])
  refine ⟨_, _, ToNoZeros_joined a b c d, IPString_four a b c d, ?_, ?_, ?_, ?_⟩
  · rw [hsplit]
    intro hmem
    rcases List.mem_cons.mp hmem with e | e
    · by_cases ha : a.val = 0
      · rw [if_pos ha] at e
        exact absurd e (by decide)
      · rw [if_neg ha] at e
        exact ha ((FormatUint_ten_eq_zero a).mp e.symm)
    · exact (hrest _ e).2.2.2 rfl
  · exact adjacentDots_Join _ _ hfirst (fun t ht => ⟨(hrest t ht).1, (hrest t ht).2.1⟩)
  · rw [hsplit, hfilter]
  · rw [hsplit, hfilter, reinsertZeros_filter]
    simp only [model, List.map_cons, List.map_nil, Join, String.append_assoc]

theorem C17_ToNoZeros_tokens_witness :
    New (addr4 0 1 2 3) = Built.ok (model 0 1 2 3) ∧
    (ToNoZeros (model 0 1 2 3) = some ".1.2.3" ∧ Split ".1.2.3" "." = ["", "1", "2", "3"]) ∧
    ToNoZeros (model 192 168 0 1) = some "192.168.1" ∧
    ∃ s dotted, ToNoZeros (model 0 1 2 3) = some s ∧
      IPString (model 0 1 2 3).IP = some dotted ∧
      "0" ∉ Split s "." ∧ adjacentDots s.data = false ∧
      (Split s ".").filter (fun t => t ≠ "")
        = ((model 0 1 2 3).IP.filter (fun x => x.val ≠ 0)).map
          (fun x => FormatUint x.val 10) ∧
      Join (reinsertZeros (model 0 1 2 3).IP ((Split s ".").filter (fun t => t ≠ ""))) "."
        = dotted :=
  ⟨New_addr4 0 1 2 3, by decide, by decide,
    C17_ToNoZeros_tokens (addr4 0 1 2 3) (model 0 1 2 3) (New_addr4 0 1 2 3)⟩

end Ipfuscator
